import Mathlib

/-! Verification of the Nim bridge compute library.

Shallow embedding of `nim_functions.cpp` (the compute library) and of the
entry points of `NimBridge.cpp` (the JNI boundary) that the properties below
are about.

* C `int` is modelled by `Int` together with an explicit arithmetic mode:
  `Arith.wrapping` reduces every result modulo `2^32` into the signed range,
  `Arith.checked` reports `Fault.overflow` when a result leaves the range.
* Loops are modelled by structural recursion on a `fuel` argument that bounds
  the number of executions of the loop body; a loop that would need another
  iteration with no fuel left yields `Fault.outOfFuel`.
* `std::string` / `NCSTRING` contents are modelled by `List Char`, one element
  per C `char`, the terminating NUL left out; `size_t` is modelled by `Nat` with
  explicit reduction modulo `2^64`.
-/

namespace NimBridge

/-! ## Machine integers -/

/-- Smallest value of a 32-bit signed `int`. -/
def INT_MIN : Int := -2147483648

/-- Largest value of a 32-bit signed `int`. -/
def INT_MAX : Int := 2147483647

/-- Reduction of a mathematical integer modulo `2^32` into `[-2^31, 2^31)`. -/
def wrap32 (x : Int) : Int := (x + 2147483648) % 4294967296 - 2147483648

/-- Ways in which an evaluation of the model can fail to produce a value. -/
inductive Fault where
  | outOfFuel
  | overflow
  | divByZero
  deriving DecidableEq, Repr

deriving instance DecidableEq for Except

/-- Interpretation of signed `int` arithmetic. -/
inductive Arith where
  | wrapping
  | checked
  deriving DecidableEq, Repr

/-- Store a mathematical result into an `int` under the given arithmetic mode. -/
def int32 (m : Arith) (x : Int) : Except Fault Int :=
  match m with
  | Arith.wrapping => Except.ok (wrap32 x)
  | Arith.checked =>
    if INT_MIN ≤ x ∧ x ≤ INT_MAX then Except.ok x else Except.error Fault.overflow

/-- The C expression `a + b` on `int`. -/
def iadd (m : Arith) (a b : Int) : Except Fault Int := int32 m (a + b)

/-- The C expression `a * b` on `int`. -/
def imul (m : Arith) (a b : Int) : Except Fault Int := int32 m (a * b)

/-- The C expression `a / b` on `int` (truncating division). -/
def idiv (m : Arith) (a b : Int) : Except Fault Int :=
  if b = 0 then Except.error Fault.divByZero else int32 m (Int.tdiv a b)

/-- The C expression `a % b` on `int` (remainder of truncating division); it is
defined only where `a / b` is. -/
def imod (m : Arith) (a b : Int) : Except Fault Int :=
  if b = 0 then Except.error Fault.divByZero
  else do
    let _ ← int32 m (Int.tdiv a b)
    pure (Int.tmod a b)

/-! ## `addNumbers` -/

/-- Source: `int addNumbers(int a, int b) { return a + b; }`. -/
def addNumbers (m : Arith) (a b : Int) : Except Fault Int := iadd m a b

/-! ## `mobileFibonacci` -/

/-- Source: the loop `for (int i = 2; i <= n; i++) { temp = a + b; a = b; b = temp; }`
of `mobileFibonacci`, followed by `return b`. -/
def fibonacciLoop (m : Arith) (n : Int) : Nat → Int → Int → Int → Except Fault Int
  | 0, i, _, b => if i ≤ n then Except.error Fault.outOfFuel else Except.ok b
  | fuel + 1, i, a, b =>
    if i ≤ n then do
      let temp ← iadd m a b
      let i' ← iadd m i 1
      fibonacciLoop m n fuel i' b temp
    else Except.ok b

/-- Source: `mobileFibonacci`. -/
def mobileFibonacci (m : Arith) (fuel : Nat) (n : Int) : Except Fault Int :=
  if n ≤ 1 then Except.ok n
  else fibonacciLoop m n fuel 2 0 1

/-! ## `mobileIsPrime` -/

/-- Source: the loop `for (int i = 5; i * i <= n; i += 6)` of `mobileIsPrime` with
its body `if (n % i == 0 || n % (i + 2) == 0) return 0;`, followed by `return 1`. -/
def isPrimeLoop (m : Arith) (n : Int) : Nat → Int → Except Fault Int
  | 0, i => do
    let sq ← imul m i i
    if sq ≤ n then Except.error Fault.outOfFuel else Except.ok 1
  | fuel + 1, i => do
    let sq ← imul m i i
    if sq ≤ n then do
      let r ← imod m n i
      if r = 0 then Except.ok 0
      else do
        let j ← iadd m i 2
        let r' ← imod m n j
        if r' = 0 then Except.ok 0
        else do
          let i' ← iadd m i 6
          isPrimeLoop m n fuel i'
    else Except.ok 1

/-- Source: `mobileIsPrime`. -/
def mobileIsPrime (m : Arith) (fuel : Nat) (n : Int) : Except Fault Int :=
  if n ≤ 1 then Except.ok 0
  else if n ≤ 3 then Except.ok 1
  else do
    let r ← imod m n 2
    if r = 0 then Except.ok 0
    else do
      let r' ← imod m n 3
      if r' = 0 then Except.ok 0
      else isPrimeLoop m n fuel 5

/-- Trial division certificate: none of `d, d + 1, ..., d + k - 1` divides `n`. -/
def noDivisorIn (n : Nat) : Nat → Nat → Bool
  | _, 0 => true
  | d, k + 1 => n % d != 0 && noDivisorIn n (d + 1) k

/-! ## `mobileFactorize` -/

/-- Decimal rendering of an `int` as written by `operator<<`. -/
def decimal (z : Int) : List Char :=
  if z < 0 then '-' :: Nat.toDigits 10 z.natAbs else Nat.toDigits 10 z.natAbs

/-- Source: the inner loop `while (n % i == 0) { factors.push_back(i); n = n / i; }`
of `mobileFactorize`; the result is the pair of `n` and `factors` after the loop. -/
def factorizeWhile (m : Arith) (i : Int) : Nat → Int → List Int → Except Fault (Int × List Int)
  | 0, n, factors => do
    let r ← imod m n i
    if r = 0 then Except.error Fault.outOfFuel else Except.ok (n, factors)
  | fuel + 1, n, factors => do
    let r ← imod m n i
    if r = 0 then do
      let q ← idiv m n i
      factorizeWhile m i fuel q (factors ++ [i])
    else Except.ok (n, factors)

/-- Source: the outer loop `for (int i = 2; i <= n; i++) { while ... }` of
`mobileFactorize`; the result is `factors` after the loop. Every run of the
inner loop may use as many iterations as the outer loop has left. -/
def factorizeFor (m : Arith) : Nat → Int → Int → List Int → Except Fault (List Int)
  | 0, i, n, factors => if i ≤ n then Except.error Fault.outOfFuel else Except.ok factors
  | fuel + 1, i, n, factors =>
    if i ≤ n then do
      let s ← factorizeWhile m i (fuel + 1) n factors
      let i' ← iadd m i 1
      factorizeFor m fuel i' s.1 s.2
    else Except.ok factors

/-- The vector `factors` that `mobileFactorize(n)` has built when its division
loop ends (lines 51 to 57 of the source). -/
def factorsOf (m : Arith) (fuel : Nat) (n : Int) : Except Fault (List Int) :=
  factorizeFor m fuel 2 n []

/-- Source: the rendering loop of `mobileFactorize`,
`for (size_t i = 0; i < factors.size(); i++) { if (i > 0) oss << ", "; oss << factors[i]; }`,
started at index `i` on the factors from that index on. -/
def renderFactors : List Int → Nat → List Char → List Char
  | [], _, oss => oss
  | f :: rest, i, oss =>
    renderFactors rest (i + 1) ((if i > 0 then oss ++ ", ".toList else oss) ++ decimal f)

/-- Source: `mobileFactorize`; the label is written from `n` before the division
loop changes it. -/
def mobileFactorize (m : Arith) (fuel : Nat) (n : Int) : Except Fault (List Char) := do
  let oss := "Factors of ".toList ++ decimal n ++ ": ".toList
  let factors ← factorsOf m fuel n
  pure (renderFactors factors 0 oss)

/-! ## `mobileCreateUser` -/

/-- The stream insertion `oss << s` on the text written so far. -/
def put (oss : List Char) (s : List Char) : List Char := oss ++ s

/-- Source: `mobileCreateUser`. -/
def mobileCreateUser (id : Int) (name email : List Char) : List Char :=
  put (put (put (put (put (put (put [] "User\x7bid: ".toList) (decimal id))
    ", name: \"".toList) name) "\", email: \"".toList) email) "\"\x7d".toList

/-! ## `mobileValidateEmail` -/

/-- The constant `std::string::npos`, the largest value of a 64-bit `size_t`. -/
def npos : Nat := 18446744073709551615

/-- Source: `std::string::find(char c, size_t pos)`: the first index `>= pos` that
holds `c`, or `npos` when there is none. -/
def find (s : List Char) (c : Char) (pos : Nat) : Nat :=
  if List.indexOf c (s.drop pos) < (s.drop pos).length then pos + List.indexOf c (s.drop pos)
  else npos

/-- Source: `mobileValidateEmail`; `size_t` arithmetic is taken modulo `2^64`. -/
def mobileValidateEmail (email : List Char) : Int :=
  let at_pos := find email '@' 0
  let dot_pos := find email '.' at_pos
  if at_pos ≠ npos ∧ dot_pos ≠ npos ∧ at_pos > 0 ∧
      dot_pos > (at_pos + 1) % 18446744073709551616 ∧
      dot_pos < (email.length + 18446744073709551616 - 1) % 18446744073709551616 then 1
  else 0

/-! ## Constant strings of the compute library -/

/-- Source: `helloWorld`; the rocket is written as its four UTF-8 bytes. -/
def helloWorld : List Char :=
  "Hello from Real Nim Core! \xf0\x9f\x9a\x80 (C++ Implementation)".toList

/-- Source: `getSystemInfo`. -/
def getSystemInfo : List Char :=
  "Nim 2.2.0 on iOS (arm64) - Real Integration Working!".toList

/-- Source: `getNimCoreVersion`. -/
def getNimCoreVersion : List Char := "2.2.0-working-integration".toList

/-! ## The JNI boundary -/

/-- The functions of the compute library that `NimBridge.cpp` declares in its
`extern "C"` block and calls. -/
inductive LibFn where
  | helloWorld
  | addNumbers
  | getSystemInfo
  | mobileFibonacci
  | mobileIsPrime
  | mobileFactorize
  | mobileCreateUser
  | mobileValidateEmail
  | getNimCoreVersion
  | mobileNimInit
  deriving DecidableEq, Repr

/-- Process-wide state of the boundary: the flag `nimInitialized`, the number of
times `mobileNimInit` has been called, and the library functions entered so far,
oldest first. -/
structure BridgeState where
  nimInitialized : Bool
  initCalls : Nat
  trace : List LibFn
  deriving DecidableEq, Repr

/-- Source: `initializeNim` of `NimBridge.cpp`. -/
def initializeNim (st : BridgeState) : BridgeState :=
  if !st.nimInitialized then
    { nimInitialized := true, initCalls := st.initCalls + 1,
      trace := st.trace ++ [LibFn.mobileNimInit] }
  else st

/-- The boundary enters the library function `f`. -/
def enter (f : LibFn) (st : BridgeState) : BridgeState :=
  { st with trace := st.trace ++ [f] }

/-- The argument resources of the JNI environment: the handles of the UTF buffers
handed out by `GetStringUTFChars` and not yet given back, and the next handle. -/
structure JniEnv where
  outstanding : List Nat
  nextHandle : Nat
  deriving DecidableEq, Repr

/-- JNI `GetStringUTFChars`: acquires a buffer holding the characters of the
string; the result is the handle of the buffer and its contents. -/
def GetStringUTFChars (env : JniEnv) (s : List Char) : JniEnv × Nat × List Char :=
  ({ outstanding := env.nextHandle :: env.outstanding, nextHandle := env.nextHandle + 1 },
    env.nextHandle, s)

/-- JNI `ReleaseStringUTFChars`: gives the buffer with handle `h` back. -/
def ReleaseStringUTFChars (env : JniEnv) (h : Nat) : JniEnv :=
  { env with outstanding := env.outstanding.erase h }

/-- JNI `NewStringUTF`: the Java string with the characters of a C string. -/
def NewStringUTF (s : List Char) : List Char := s

/-- Source: `Java_com_nimbridge_NimBridgeModule_nativeHelloWorld`. -/
def nativeHelloWorld (st : BridgeState) : BridgeState × List Char :=
  let st' := enter LibFn.helloWorld (initializeNim st)
  (st', NewStringUTF helloWorld)

/-- Source: `Java_com_nimbridge_NimBridgeModule_nativeAddNumbers`. -/
def nativeAddNumbers (m : Arith) (st : BridgeState) (a b : Int) :
    BridgeState × Except Fault Int :=
  let st' := enter LibFn.addNumbers (initializeNim st)
  (st', addNumbers m a b)

/-- Source: `Java_com_nimbridge_NimBridgeModule_nativeGetSystemInfo`. -/
def nativeGetSystemInfo (st : BridgeState) : BridgeState × List Char :=
  let st' := enter LibFn.getSystemInfo (initializeNim st)
  (st', NewStringUTF getSystemInfo)

/-- Source: `Java_com_nimbridge_NimBridgeModule_nativeMobileFibonacci`. -/
def nativeMobileFibonacci (m : Arith) (fuel : Nat) (st : BridgeState) (n : Int) :
    BridgeState × Except Fault Int :=
  let st' := enter LibFn.mobileFibonacci (initializeNim st)
  (st', mobileFibonacci m fuel n)

/-- Source: `Java_com_nimbridge_NimBridgeModule_nativeMobileIsPrime`. -/
def nativeMobileIsPrime (m : Arith) (fuel : Nat) (st : BridgeState) (n : Int) :
    BridgeState × Except Fault Int :=
  let st' := enter LibFn.mobileIsPrime (initializeNim st)
  (st', mobileIsPrime m fuel n)

/-- Source: `Java_com_nimbridge_NimBridgeModule_nativeMobileFactorize`. -/
def nativeMobileFactorize (m : Arith) (fuel : Nat) (st : BridgeState) (n : Int) :
    BridgeState × Except Fault (List Char) :=
  let st' := enter LibFn.mobileFactorize (initializeNim st)
  (st', (mobileFactorize m fuel n).map NewStringUTF)

/-- Source: `Java_com_nimbridge_NimBridgeModule_nativeMobileCreateUser`: both
arguments are acquired, the library is called, both buffers are released. -/
def nativeMobileCreateUser (st : BridgeState) (env : JniEnv) (id : Int)
    (name email : List Char) : BridgeState × JniEnv × List Char :=
  let st1 := initializeNim st
  let (env1, nameHandle, nameStr) := GetStringUTFChars env name
  let (env2, emailHandle, emailStr) := GetStringUTFChars env1 email
  let st2 := enter LibFn.mobileCreateUser st1
  let result := mobileCreateUser id nameStr emailStr
  let env3 := ReleaseStringUTFChars env2 nameHandle
  let env4 := ReleaseStringUTFChars env3 emailHandle
  (st2, env4, NewStringUTF result)

/-- Source: `Java_com_nimbridge_NimBridgeModule_nativeMobileValidateEmail`: the
argument is acquired inside the call expression and the source has no
`ReleaseStringUTFChars` for it. -/
def nativeMobileValidateEmail (st : BridgeState) (env : JniEnv) (email : List Char) :
    BridgeState × JniEnv × Int :=
  let st1 := initializeNim st
  let (env1, _, emailStr) := GetStringUTFChars env email
  let st2 := enter LibFn.mobileValidateEmail st1
  (st2, env1, mobileValidateEmail emailStr)

/-- Source: `Java_com_nimbridge_NimBridgeModule_nativeGetNimCoreVersion`. -/
def nativeGetNimCoreVersion (st : BridgeState) : BridgeState × List Char :=
  let st' := enter LibFn.getNimCoreVersion (initializeNim st)
  (st', NewStringUTF getNimCoreVersion)

/-- A call of one of the nine boundary operations, with its arguments. -/
inductive BoundaryCall where
  | helloWorld
  | addNumbers (a b : Int)
  | getSystemInfo
  | mobileFibonacci (n : Int)
  | mobileIsPrime (n : Int)
  | mobileFactorize (n : Int)
  | mobileCreateUser (id : Int) (name email : List Char)
  | mobileValidateEmail (email : List Char)
  | getNimCoreVersion

/-- The library function that a boundary call forwards to. -/
def BoundaryCall.target : BoundaryCall → LibFn
  | BoundaryCall.helloWorld => LibFn.helloWorld
  | BoundaryCall.addNumbers _ _ => LibFn.addNumbers
  | BoundaryCall.getSystemInfo => LibFn.getSystemInfo
  | BoundaryCall.mobileFibonacci _ => LibFn.mobileFibonacci
  | BoundaryCall.mobileIsPrime _ => LibFn.mobileIsPrime
  | BoundaryCall.mobileFactorize _ => LibFn.mobileFactorize
  | BoundaryCall.mobileCreateUser _ _ _ => LibFn.mobileCreateUser
  | BoundaryCall.mobileValidateEmail _ => LibFn.mobileValidateEmail
  | BoundaryCall.getNimCoreVersion => LibFn.getNimCoreVersion

/-- The effect of one boundary call on the process state and on the JNI
environment (the value returned to the host is dropped). -/
def boundaryStep (m : Arith) (fuel : Nat) (s : BridgeState × JniEnv) :
    BoundaryCall → BridgeState × JniEnv
  | BoundaryCall.helloWorld => ((nativeHelloWorld s.1).1, s.2)
  | BoundaryCall.addNumbers a b => ((nativeAddNumbers m s.1 a b).1, s.2)
  | BoundaryCall.getSystemInfo => ((nativeGetSystemInfo s.1).1, s.2)
  | BoundaryCall.mobileFibonacci n => ((nativeMobileFibonacci m fuel s.1 n).1, s.2)
  | BoundaryCall.mobileIsPrime n => ((nativeMobileIsPrime m fuel s.1 n).1, s.2)
  | BoundaryCall.mobileFactorize n => ((nativeMobileFactorize m fuel s.1 n).1, s.2)
  | BoundaryCall.mobileCreateUser id name email =>
    ((nativeMobileCreateUser s.1 s.2 id name email).1,
      (nativeMobileCreateUser s.1 s.2 id name email).2.1)
  | BoundaryCall.mobileValidateEmail email =>
    ((nativeMobileValidateEmail s.1 s.2 email).1, (nativeMobileValidateEmail s.1 s.2 email).2.1)
  | BoundaryCall.getNimCoreVersion => ((nativeGetNimCoreVersion s.1).1, s.2)

/-- A finite sequence of boundary calls, run one after the other. -/
def runCalls (m : Arith) (fuel : Nat) (s : BridgeState × JniEnv) (cs : List BoundaryCall) :
    BridgeState × JniEnv :=
  cs.foldl (boundaryStep m fuel) s

/-- The state of a fresh process: `static bool nimInitialized = false`. -/
def initialState : BridgeState := { nimInitialized := false, initCalls := 0, trace := [] }

/-! ## Facts about the arithmetic model -/

theorem wrap32_ge (x : Int) : INT_MIN ≤ wrap32 x := by
  unfold wrap32 INT_MIN; omega

theorem wrap32_le (x : Int) : wrap32 x ≤ INT_MAX := by
  unfold wrap32 INT_MAX; omega

theorem wrap32_of_inRange {x : Int} (h1 : INT_MIN ≤ x) (h2 : x ≤ INT_MAX) : wrap32 x = x := by
  unfold wrap32; unfold INT_MIN at h1; unfold INT_MAX at h2; omega

theorem wrap32_congr (x : Int) : (wrap32 x - x) % 4294967296 = 0 := by
  unfold wrap32; omega

theorem int32_of_inRange (m : Arith) {x : Int} (h1 : INT_MIN ≤ x) (h2 : x ≤ INT_MAX) :
    int32 m x = Except.ok x := by
  cases m
  · simp [int32, wrap32_of_inRange h1 h2]
  · simp [int32, h1, h2]

theorem int32_wrapping (x : Int) : int32 Arith.wrapping x = Except.ok (wrap32 x) := rfl

theorem imod_of_pos (m : Arith) {a b : Int} (ha : 0 ≤ a) (haM : a ≤ INT_MAX) (hb : 0 < b) :
    imod m a b = Except.ok (Int.tmod a b) := by
  have hb0 : b ≠ 0 := by omega
  have hq : Int.tdiv a b = a / b := Int.tdiv_eq_ediv ha (by omega)
  have h1 : 0 ≤ a / b := Int.ediv_nonneg ha (by omega)
  have h2 : a / b ≤ a := Int.ediv_le_self b ha
  have hr := int32_of_inRange m (x := Int.tdiv a b) (by unfold INT_MIN; omega) (by omega)
  simp [imod, hb0, hr, bind, Except.bind, pure, Except.pure]

theorem idiv_of_pos (m : Arith) {a b : Int} (ha : 0 ≤ a) (haM : a ≤ INT_MAX) (hb : 0 < b) :
    idiv m a b = Except.ok (a / b) := by
  have hb0 : b ≠ 0 := by omega
  have hq : Int.tdiv a b = a / b := Int.tdiv_eq_ediv ha (by omega)
  have h1 : 0 ≤ a / b := Int.ediv_nonneg ha (by omega)
  have h2 : a / b ≤ a := Int.ediv_le_self b ha
  have hr := int32_of_inRange m (x := a / b) (by unfold INT_MIN; omega) (by omega)
  simp [idiv, hb0, hq, hr]

theorem tmod_eq_zero_iff_dvd {a b : Int} : Int.tmod a b = 0 ↔ b ∣ a :=
  ⟨Int.dvd_of_tmod_eq_zero, Int.tmod_eq_zero_of_dvd⟩

/-! ## 2147483647 is prime -/

theorem noDivisorIn_sound (n : Nat) :
    ∀ (k d : Nat), noDivisorIn n d k = true → ∀ x, d ≤ x → x < d + k → ¬ x ∣ n := by
  intro k
  induction k with
  | zero => intro d _ x h1 h2; omega
  | succ k ih =>
    intro d h x h1 h2
    simp only [noDivisorIn, Bool.and_eq_true, bne_iff_ne, ne_eq] at h
    rcases Nat.eq_or_lt_of_le h1 with rfl | hlt
    · intro hd
      exact h.1 (Nat.mod_eq_zero_of_dvd hd)
    · exact ih (d + 1) h.2 x hlt (by omega)

theorem noDivisorIn_INT_MAX : noDivisorIn 2147483647 2 46339 = true := by decide!

theorem prime_INT_MAX : Nat.Prime 2147483647 := by
  rw [Nat.prime_def_le_sqrt]
  refine ⟨by norm_num, ?_⟩
  intro d hd2 hds
  have hsq : d * d ≤ 2147483647 := Nat.le_sqrt.mp hds
  have hd : d < 2 + 46339 := by
    by_contra hcon
    have : 46341 ≤ d := by omega
    have := Nat.mul_le_mul this this
    omega
  exact noDivisorIn_sound 2147483647 46339 2 noDivisorIn_INT_MAX d hd2 hd

theorem tmod_INT_MAX_ne_zero (i : Int) (h1 : 2 ≤ i) (h2 : i < 2147483647) :
    Int.tmod 2147483647 i ≠ 0 := by
  intro h
  have hdvd : i ∣ (2147483647 : Int) := Int.dvd_of_tmod_eq_zero h
  obtain ⟨k, rfl⟩ := Int.eq_ofNat_of_zero_le (by omega : 0 ≤ i)
  have hk : k ∣ 2147483647 := by exact_mod_cast hdvd
  rcases (Nat.dvd_prime prime_INT_MAX).mp hk with h | h <;> omega

/-! ## `mobileIsPrime` at `INT_MAX` -/

theorem imod_wrapping (a : Int) {b : Int} (hb : b ≠ 0) :
    imod Arith.wrapping a b = Except.ok (Int.tmod a b) := by
  simp [imod, hb, int32, bind, Except.bind, pure, Except.pure]

theorem isPrimeLoop_INT_MAX :
    ∀ (k fuel : Nat) (i : Int), i + 6 * (k : Int) = 2147483645 → 5 ≤ i → k + 1 ≤ fuel →
      isPrimeLoop Arith.wrapping 2147483647 fuel i = Except.ok 0 := by
  intro k
  induction k with
  | zero =>
    intro fuel i hi _ hf
    obtain ⟨f, rfl⟩ : ∃ f, fuel = f + 1 := ⟨fuel - 1, by omega⟩
    have hi' : i = 2147483645 := by omega
    subst hi'
    have hsq : wrap32 (2147483645 * 2147483645) ≤ 2147483647 := wrap32_le _
    have hr1 : Int.tmod 2147483647 2147483645 ≠ 0 := by decide
    have hw2 : wrap32 (2147483645 + 2) = 2147483647 := by decide
    have hr2 : Int.tmod 2147483647 2147483647 = 0 := by decide
    simp only [isPrimeLoop, imul, iadd, int32_wrapping, bind, Except.bind, hsq, if_true,
      imod_wrapping _ (by decide : (2147483645 : Int) ≠ 0), hr1, if_false, hw2,
      imod_wrapping _ (by decide : (2147483647 : Int) ≠ 0), hr2]
  | succ k ih =>
    intro fuel i hi h5 hf
    obtain ⟨f, rfl⟩ : ∃ f, fuel = f + 1 := ⟨fuel - 1, by omega⟩
    have hsq : wrap32 (i * i) ≤ 2147483647 := wrap32_le _
    have hi0 : i ≠ 0 := by omega
    have hr1 : Int.tmod 2147483647 i ≠ 0 := tmod_INT_MAX_ne_zero i (by omega) (by omega)
    have hw2 : wrap32 (i + 2) = i + 2 :=
      wrap32_of_inRange (by unfold INT_MIN; omega) (by unfold INT_MAX; omega)
    have hi2 : i + 2 ≠ 0 := by omega
    have hr2 : Int.tmod 2147483647 (i + 2) ≠ 0 :=
      tmod_INT_MAX_ne_zero (i + 2) (by omega) (by push_cast at hi; omega)
    have hw6 : wrap32 (i + 6) = i + 6 :=
      wrap32_of_inRange (by unfold INT_MIN; omega) (by unfold INT_MAX; push_cast at hi; omega)
    have hrec := ih f (i + 6) (by push_cast at hi ⊢; omega) (by omega) (by omega)
    simp only [isPrimeLoop, imul, iadd, int32_wrapping, bind, Except.bind, hsq, if_true,
      imod_wrapping _ hi0, hr1, if_false, hw2, imod_wrapping _ hi2, hr2, hw6, hrec]

theorem isPrimeLoop_INT_MAX_checked :
    ∀ (k fuel : Nat) (i : Int), i + 6 * (k : Int) = 46343 → 5 ≤ i → k ≤ fuel →
      isPrimeLoop Arith.checked 2147483647 fuel i = Except.error Fault.overflow := by
  intro k
  induction k with
  | zero =>
    intro fuel i hi _ _
    have hi' : i = 46343 := by omega
    subst hi'
    have hmul : imul Arith.checked 46343 46343 = Except.error Fault.overflow := by decide
    cases fuel <;> simp [isPrimeLoop, hmul, bind, Except.bind]
  | succ k ih =>
    intro fuel i hi h5 hf
    obtain ⟨f, rfl⟩ : ∃ f, fuel = f + 1 := ⟨fuel - 1, by omega⟩
    have hi46 : i ≤ 46337 := by push_cast at hi; omega
    have hsqM : i * i ≤ INT_MAX := by unfold INT_MAX; nlinarith
    have hsq0 : INT_MIN ≤ i * i := by unfold INT_MIN; nlinarith
    have hmul : imul Arith.checked i i = Except.ok (i * i) :=
      int32_of_inRange Arith.checked hsq0 hsqM
    have hle : i * i ≤ 2147483647 := hsqM
    have hnM : (2147483647 : Int) ≤ INT_MAX := le_refl _
    have hm1 : imod Arith.checked 2147483647 i = Except.ok (Int.tmod 2147483647 i) :=
      imod_of_pos Arith.checked (by omega) hnM (by omega)
    have hr1 : Int.tmod 2147483647 i ≠ 0 := tmod_INT_MAX_ne_zero i (by omega) (by omega)
    have ha2 : iadd Arith.checked i 2 = Except.ok (i + 2) :=
      int32_of_inRange Arith.checked (by unfold INT_MIN; omega) (by unfold INT_MAX; omega)
    have hm2 : imod Arith.checked 2147483647 (i + 2) =
        Except.ok (Int.tmod 2147483647 (i + 2)) :=
      imod_of_pos Arith.checked (by omega) hnM (by omega)
    have hr2 : Int.tmod 2147483647 (i + 2) ≠ 0 :=
      tmod_INT_MAX_ne_zero (i + 2) (by omega) (by omega)
    have ha6 : iadd Arith.checked i 6 = Except.ok (i + 6) :=
      int32_of_inRange Arith.checked (by unfold INT_MIN; omega) (by unfold INT_MAX; omega)
    have hrec := ih f (i + 6) (by push_cast at hi ⊢; omega) (by omega) (by omega)
    simp only [isPrimeLoop, hmul, hle, if_true, hm1, hr1, if_false, ha2, hm2, hr2, ha6, bind,
      Except.bind, hrec]

/-- C1 (evaluation at the failing input): in wrapping 32-bit arithmetic
`mobileIsPrime(2147483647)` returns 0 once the loop is given the 357913941 iterations
it takes, although 2147483647 is a prime number. From `i = 46343` on the product
`i * i` no longer fits 32 bits (in checked arithmetic the evaluation stops there with
an overflow), the test `i * i <= n` stays true, and the loop only ends when `i + 2`
reaches `n` and `n % (i + 2) == 0` holds. -/
theorem mobileIsPrime_INT_MAX (fuel : Nat) (hf : 357913941 ≤ fuel) :
    mobileIsPrime Arith.wrapping fuel 2147483647 = Except.ok 0 ∧ Nat.Prime 2147483647 ∧
      mobileIsPrime Arith.checked fuel 2147483647 = Except.error Fault.overflow := by
  refine ⟨?_, prime_INT_MAX, ?_⟩
  · have hloop := isPrimeLoop_INT_MAX 357913940 fuel 5 (by norm_num) (by norm_num) (by omega)
    unfold mobileIsPrime
    rw [hloop]
    decide
  · have hloop := isPrimeLoop_INT_MAX_checked 7723 fuel 5 (by norm_num) (by norm_num)
      (by omega)
    unfold mobileIsPrime
    rw [hloop]
    decide

/-- Witness for C1 with exactly 357913941 iterations of fuel. -/
theorem mobileIsPrime_INT_MAX_witness :
    357913941 ≤ 357913941 ∧
      mobileIsPrime Arith.wrapping 357913941 2147483647 = Except.ok 0 ∧
      Nat.Prime 2147483647 ∧
      mobileIsPrime Arith.checked 357913941 2147483647 = Except.error Fault.overflow :=
  ⟨Nat.le_refl _, mobileIsPrime_INT_MAX 357913941 (Nat.le_refl _)⟩

/-! ## `mobileIsPrime` below the overflow bound -/

theorem not_prime_of_int_dvd {d n : Int} (hd2 : 2 ≤ d) (hlt : d < n) (hd : d ∣ n) :
    ¬ Nat.Prime n.toNat := by
  intro hp
  have hdn : d.toNat ∣ n.toNat := by
    have h1 : (d.toNat : Int) = d := Int.toNat_of_nonneg (by omega)
    have h2 : (n.toNat : Int) = n := Int.toNat_of_nonneg (by omega)
    have : (d.toNat : Int) ∣ (n.toNat : Int) := by rw [h1, h2]; exact hd
    exact_mod_cast this
  rcases (Nat.dvd_prime hp).mp hdn with h | h <;> omega

theorem prime_of_no_divisor_below {i n : Int} (hn : 2 ≤ n) (hi : 0 ≤ i) (hsq : n < i * i)
    (hno : ∀ d : Int, 2 ≤ d → d < i → ¬ d ∣ n) : Nat.Prime n.toNat := by
  rw [Nat.prime_def_le_sqrt]
  refine ⟨by omega, ?_⟩
  intro k hk2 hks hk
  have hkk : k * k ≤ n.toNat := Nat.le_sqrt.mp hks
  have hn' : (n.toNat : Int) = n := Int.toNat_of_nonneg (by omega)
  have hkk' : (k : Int) * k ≤ n := by rw [← hn']; exact_mod_cast hkk
  have hki : (k : Int) < i := by
    by_contra hcon
    have : i ≤ k := by omega
    nlinarith
  have hdvd : (k : Int) ∣ n := by rw [← hn']; exact_mod_cast hk
  exact hno k (by omega) hki hdvd

theorem isPrimeLoop_spec (m : Arith) (n : Int) (hn : n ≤ 2147117568) (h2 : ¬ (2 : Int) ∣ n)
    (h3 : ¬ (3 : Int) ∣ n) :
    ∀ (fuel : Nat) (i : Int), 5 ≤ i → i % 6 = 5 → i ≤ 46337 → 5 ≤ n →
      (∀ d : Int, 2 ≤ d → d < i → ¬ d ∣ n) → 46338 ≤ i + 6 * (fuel : Int) →
      isPrimeLoop m n fuel i = Except.ok (if Nat.Prime n.toNat then 1 else 0) := by
  intro fuel
  induction fuel with
  | zero => intro i _ _ hi _ _ hf; simp at hf; omega
  | succ fuel ih =>
    intro i h5 hmod hiM hn5 hno hf
    have hsqM : i * i ≤ INT_MAX := by unfold INT_MAX; nlinarith
    have hsq0 : INT_MIN ≤ i * i := by unfold INT_MIN; nlinarith
    have hmul : imul m i i = Except.ok (i * i) := int32_of_inRange m hsq0 hsqM
    have hnM : n ≤ INT_MAX := by unfold INT_MAX; omega
    by_cases hle : i * i ≤ n
    · have hilt : i < n := by nlinarith
      have hi2lt : i + 2 < n := by nlinarith
      have hi46 : i < 46337 := by nlinarith
      have hm1 : imod m n i = Except.ok (Int.tmod n i) := imod_of_pos m (by omega) hnM (by omega)
      have ha2 : iadd m i 2 = Except.ok (i + 2) :=
        int32_of_inRange m (by unfold INT_MIN; omega) (by unfold INT_MAX; omega)
      have hm2 : imod m n (i + 2) = Except.ok (Int.tmod n (i + 2)) :=
        imod_of_pos m (by omega) hnM (by omega)
      have ha6 : iadd m i 6 = Except.ok (i + 6) :=
        int32_of_inRange m (by unfold INT_MIN; omega) (by unfold INT_MAX; omega)
      by_cases hd1 : i ∣ n
      · have hnp := not_prime_of_int_dvd (by omega) hilt hd1
        simp [isPrimeLoop, hmul, hle, hm1, tmod_eq_zero_iff_dvd.mpr hd1, hnp, bind, Except.bind]
      · have hr1 : Int.tmod n i ≠ 0 := fun h => hd1 (tmod_eq_zero_iff_dvd.mp h)
        by_cases hd2 : (i + 2) ∣ n
        · have hnp := not_prime_of_int_dvd (by omega) hi2lt hd2
          simp [isPrimeLoop, hmul, hle, hm1, hr1, ha2, hm2, tmod_eq_zero_iff_dvd.mpr hd2, hnp,
            bind, Except.bind]
        · have hr2 : Int.tmod n (i + 2) ≠ 0 := fun h => hd2 (tmod_eq_zero_iff_dvd.mp h)
          have hrec := ih (i + 6) (by omega) (by omega) (by omega) hn5
            (by
              intro d hd2' hdlt hdn
              by_cases hlt : d < i
              · exact hno d hd2' hlt hdn
              · have hcases : d = i ∨ d = i + 2 ∨ d % 2 = 0 ∨ d % 3 = 0 := by omega
                rcases hcases with rfl | rfl | he | he
                · exact hd1 hdn
                · exact hd2 hdn
                · exact h2 (dvd_trans (Int.dvd_of_emod_eq_zero he) hdn)
                · exact h3 (dvd_trans (Int.dvd_of_emod_eq_zero he) hdn))
            (by push_cast at hf ⊢; omega)
          simp only [isPrimeLoop, hmul, hle, if_true, hm1, hr1, if_false, ha2, hm2, hr2, ha6,
            bind, Except.bind, hrec]
    · have hp := prime_of_no_divisor_below (by omega) (by omega) (by omega : n < i * i) hno
      simp [isPrimeLoop, hmul, hle, hp, bind, Except.bind]

/-- For every `n <= 2147117568` (every `int` below `46337^2`) `mobileIsPrime(n)` decides
primality: within 7723 iterations it returns 1 when `n` is prime and 0 otherwise, in
checked arithmetic as in wrapping arithmetic. -/
theorem mobileIsPrime_spec (m : Arith) (n : Int) (h0 : INT_MIN ≤ n) (hn : n ≤ 2147117568)
    (fuel : Nat) (hf : 7723 ≤ fuel) :
    mobileIsPrime m fuel n = Except.ok (if Nat.Prime n.toNat then 1 else 0) := by
  by_cases h1 : n ≤ 1
  · have hnp : ¬ Nat.Prime n.toNat := by
      intro hp
      have := hp.two_le
      omega
    simp [mobileIsPrime, h1, hnp]
  · by_cases h3 : n ≤ 3
    · have hp : Nat.Prime n.toNat := by
        have : n = 2 ∨ n = 3 := by omega
        rcases this with rfl | rfl
        · exact Nat.prime_two
        · exact Nat.prime_three
      simp [mobileIsPrime, h1, h3, hp]
    · have hnM : n ≤ INT_MAX := by unfold INT_MAX; omega
      have hm2 : imod m n 2 = Except.ok (Int.tmod n 2) := imod_of_pos m (by omega) hnM (by omega)
      have hm3 : imod m n 3 = Except.ok (Int.tmod n 3) := imod_of_pos m (by omega) hnM (by omega)
      by_cases hd2 : (2 : Int) ∣ n
      · have hnp := not_prime_of_int_dvd (le_refl _) (by omega) hd2
        simp [mobileIsPrime, h1, h3, hm2, tmod_eq_zero_iff_dvd.mpr hd2, hnp, bind, Except.bind]
      · have hr2 : Int.tmod n 2 ≠ 0 := fun h => hd2 (tmod_eq_zero_iff_dvd.mp h)
        by_cases hd3 : (3 : Int) ∣ n
        · have hnp := not_prime_of_int_dvd (by omega) (by omega) hd3
          simp [mobileIsPrime, h1, h3, hm2, hr2, hm3, tmod_eq_zero_iff_dvd.mpr hd3, hnp, bind,
            Except.bind]
        · have hr3 : Int.tmod n 3 ≠ 0 := fun h => hd3 (tmod_eq_zero_iff_dvd.mp h)
          have hn5 : 5 ≤ n := by
            by_contra hcon
            have : n = 4 := by omega
            exact hd2 (this ▸ (by decide))
          have hloop := isPrimeLoop_spec m n hn hd2 hd3 fuel 5 (le_refl _) (by decide)
            (by omega) hn5
            (by
              intro d hd2' hdlt hdn
              have hcases : d = 2 ∨ d = 3 ∨ d = 4 := by omega
              rcases hcases with rfl | rfl | rfl
              · exact hd2 hdn
              · exact hd3 hdn
              · exact hd2 (dvd_trans (by decide) hdn))
            (by omega)
          simp only [mobileIsPrime, h1, h3, if_false, hm2, hr2, hm3, hr3, bind, Except.bind,
            hloop]

/-! ## `mobileFactorize` at `INT_MAX` -/

theorem idiv_wrapping (a : Int) {b : Int} (hb : b ≠ 0) :
    idiv Arith.wrapping a b = Except.ok (wrap32 (Int.tdiv a b)) := by
  simp [idiv, hb, int32]

theorem tmod_one_of_le_neg_two {i : Int} (hi : i ≤ -2) : Int.tmod 1 i = 1 := by
  have h : Int.tmod 1 (-(-i)) = 1 := by
    rw [Int.tmod_neg]
    exact Int.tmod_eq_of_lt (by decide) (by omega)
  simpa using h

/-- The inner loop at `i = -1` never ends once `n` is `1` or `-1`. -/
theorem factorizeWhile_neg_one_diverges :
    ∀ (fuel : Nat) (n : Int) (fs : List Int), n = 1 ∨ n = -1 →
      factorizeWhile Arith.wrapping (-1) fuel n fs = Except.error Fault.outOfFuel := by
  intro fuel
  induction fuel with
  | zero =>
    intro n fs hn
    rcases hn with rfl | rfl <;>
      simp [factorizeWhile, imod_wrapping, bind, Except.bind]
  | succ f ih =>
    intro n fs hn
    rcases hn with rfl | rfl
    · have hq : wrap32 (Int.tdiv 1 (-1)) = -1 := by decide
      have hr : Int.tmod 1 (-1) = 0 := by decide
      simp only [factorizeWhile, imod_wrapping _ (by decide : (-1 : Int) ≠ 0),
        idiv_wrapping _ (by decide : (-1 : Int) ≠ 0), bind, Except.bind, hr, if_true, hq]
      exact ih (-1) _ (Or.inr rfl)
    · have hq : wrap32 (Int.tdiv (-1) (-1)) = 1 := by decide
      have hr : Int.tmod (-1) (-1) = 0 := by decide
      simp only [factorizeWhile, imod_wrapping _ (by decide : (-1 : Int) ≠ 0),
        idiv_wrapping _ (by decide : (-1 : Int) ≠ 0), bind, Except.bind, hr, if_true, hq]
      exact ih 1 _ (Or.inl rfl)

theorem factorizeFor_neg_one_diverges (fuel : Nat) (fs : List Int) :
    factorizeFor Arith.wrapping fuel (-1) 1 fs = Except.error Fault.outOfFuel := by
  cases fuel with
  | zero => simp [factorizeFor]
  | succ f =>
    simp only [factorizeFor, factorizeWhile_neg_one_diverges (f + 1) 1 fs (Or.inl rfl), bind,
      Except.bind]
    simp

/-- One pass of the outer loop at a counter `i <= -2` with `n = 1`: nothing divides. -/
theorem factorizeWhile_one_neg (fuel : Nat) (i : Int) (hi : i ≤ -2) (fs : List Int) :
    factorizeWhile Arith.wrapping i fuel 1 fs = Except.ok (1, fs) := by
  have hr : Int.tmod 1 i = 1 := tmod_one_of_le_neg_two hi
  have hi0 : i ≠ 0 := by omega
  cases fuel <;> simp [factorizeWhile, imod_wrapping _ hi0, hr, bind, Except.bind]

theorem factorizeFor_negative_diverges :
    ∀ (k fuel : Nat) (i : Int) (fs : List Int), i + (k : Int) = -1 → INT_MIN ≤ i →
      factorizeFor Arith.wrapping fuel i 1 fs = Except.error Fault.outOfFuel := by
  intro k
  induction k with
  | zero =>
    intro fuel i fs hi _
    have : i = -1 := by omega
    subst this
    exact factorizeFor_neg_one_diverges fuel fs
  | succ k ih =>
    intro fuel i fs hi hmin
    have hi2 : i ≤ -2 := by push_cast at hi; omega
    have hle : i ≤ 1 := by omega
    cases fuel with
    | zero => simp [factorizeFor, hle]
    | succ f =>
      have hw : wrap32 (i + 1) = i + 1 :=
        wrap32_of_inRange (by omega) (by unfold INT_MAX; omega)
      have hrec := ih f (i + 1) fs (by push_cast at hi ⊢; omega) (by omega)
      simp only [factorizeFor, hle, if_true, factorizeWhile_one_neg (f + 1) i hi2 fs, bind,
        Except.bind, iadd, int32_wrapping, hw, hrec]

/-- The pass of the outer loop at `i = INT_MAX` with `n = INT_MAX`. -/
theorem factorizeWhile_INT_MAX (m : Arith) (f : Nat) :
    factorizeWhile m 2147483647 (f + 1) 2147483647 [] = Except.ok (1, [2147483647]) := by
  have hM : (2147483647 : Int) ≤ INT_MAX := le_refl _
  have hm := imod_of_pos m (a := 2147483647) (b := 2147483647) (by decide) hM (by decide)
  have hd := idiv_of_pos m (a := 2147483647) (b := 2147483647) (by decide) hM (by decide)
  have hm1 := imod_of_pos m (a := 1) (b := 2147483647) (by decide) (by decide) (by decide)
  have hr : Int.tmod 2147483647 2147483647 = 0 := by decide
  have hq : (2147483647 : Int) / 2147483647 = 1 := by decide
  have hr1 : Int.tmod 1 2147483647 = 1 := by decide
  rw [hr] at hm
  rw [hq] at hd
  rw [hr1] at hm1
  cases f <;> simp [factorizeWhile, hm, hd, hm1, bind, Except.bind]

/-- A pass of the outer loop at `2 <= i < INT_MAX` with `n = INT_MAX`: nothing divides. -/
theorem factorizeWhile_INT_MAX_lt (m : Arith) (fuel : Nat) (i : Int) (h2 : 2 ≤ i)
    (hi : i < 2147483647) :
    factorizeWhile m i fuel 2147483647 [] = Except.ok (2147483647, []) := by
  have hr := tmod_INT_MAX_ne_zero i h2 hi
  have hm := imod_of_pos m (a := 2147483647) (b := i) (by decide) (le_refl _) (by omega)
  cases fuel <;> simp [factorizeWhile, hm, hr, bind, Except.bind]

theorem factorizeFor_INT_MAX_diverges :
    ∀ (k fuel : Nat) (i : Int), i + (k : Int) = 2147483647 → 2 ≤ i →
      factorizeFor Arith.wrapping fuel i 2147483647 [] = Except.error Fault.outOfFuel := by
  intro k
  induction k with
  | zero =>
    intro fuel i hi _
    have : i = 2147483647 := by omega
    subst this
    cases fuel with
    | zero => simp [factorizeFor]
    | succ f =>
      have hw : wrap32 (2147483647 + 1) = -2147483648 := by decide
      have hrec := factorizeFor_negative_diverges 2147483647 f (-2147483648) [2147483647]
        (by norm_num) (by unfold INT_MIN; omega)
      simp only [factorizeFor, le_refl, if_true, factorizeWhile_INT_MAX Arith.wrapping f, bind,
        Except.bind,
        iadd, int32_wrapping, hw, hrec]
  | succ k ih =>
    intro fuel i hi h2
    have hlt : i < 2147483647 := by push_cast at hi; omega
    have hle : i ≤ 2147483647 := by omega
    cases fuel with
    | zero => simp [factorizeFor, hle]
    | succ f =>
      have hw : wrap32 (i + 1) = i + 1 :=
        wrap32_of_inRange (by unfold INT_MIN; omega) (by unfold INT_MAX; omega)
      have hrec := ih f (i + 1) (by push_cast at hi ⊢; omega) (by omega)
      simp only [factorizeFor, hle, if_true,
        factorizeWhile_INT_MAX_lt Arith.wrapping (f + 1) i h2 hlt, bind,
        Except.bind, iadd, int32_wrapping, hw, hrec]

theorem factorizeFor_INT_MAX_checked :
    ∀ (k fuel : Nat) (i : Int), i + (k : Int) = 2147483647 → 2 ≤ i →
      factorizeFor Arith.checked fuel i 2147483647 [] =
        Except.error (if fuel ≤ k then Fault.outOfFuel else Fault.overflow) := by
  intro k
  induction k with
  | zero =>
    intro fuel i hi _
    have : i = 2147483647 := by omega
    subst this
    cases fuel with
    | zero => simp [factorizeFor]
    | succ f =>
      have hov : iadd Arith.checked 2147483647 1 = Except.error Fault.overflow := by decide
      simp only [factorizeFor, le_refl, if_true, factorizeWhile_INT_MAX Arith.checked f, bind,
        Except.bind, hov]
      simp
  | succ k ih =>
    intro fuel i hi h2
    have hlt : i < 2147483647 := by push_cast at hi; omega
    have hle : i ≤ 2147483647 := by omega
    cases fuel with
    | zero => simp [factorizeFor, hle]
    | succ f =>
      have hnext : iadd Arith.checked i 1 = Except.ok (i + 1) :=
        int32_of_inRange Arith.checked (by unfold INT_MIN; omega) (by unfold INT_MAX; omega)
      have hrec := ih f (i + 1) (by push_cast at hi ⊢; omega) (by omega)
      simp only [factorizeFor, hle, if_true,
        factorizeWhile_INT_MAX_lt Arith.checked (f + 1) i h2 hlt, bind, Except.bind, hnext,
        hrec, Nat.add_le_add_iff_right]

/-- C2 (evaluation at the failing input): in wrapping 32-bit arithmetic the division
loop of `mobileFactorize(2147483647)` never ends, whatever number of iterations it is
allowed, and in checked arithmetic it stops with the overflow of `i++` as soon as it
is allowed the 2147483646 passes from `i = 2` to `i = INT_MAX`; so no factor list
with product `n` is produced for this prime `n >= 1`. -/
theorem factorsOf_INT_MAX_diverges (fuel : Nat) :
    factorsOf Arith.wrapping fuel 2147483647 = Except.error Fault.outOfFuel ∧
      factorsOf Arith.checked fuel 2147483647 =
        Except.error (if fuel ≤ 2147483645 then Fault.outOfFuel else Fault.overflow) ∧
      Nat.Prime 2147483647 :=
  ⟨factorizeFor_INT_MAX_diverges 2147483645 fuel 2 (by norm_num) (by norm_num),
    factorizeFor_INT_MAX_checked 2147483645 fuel 2 (by norm_num) (by norm_num), prime_INT_MAX⟩


theorem factorizeFor_step (fuel : Nat) (i n : Int) (fs : List Int) (n' : Int) (fs' : List Int)
    (hle : i ≤ n)
    (hin : factorizeWhile Arith.wrapping i (fuel + 1) n fs = Except.ok (n', fs')) :
    factorizeFor Arith.wrapping (fuel + 1) i n fs =
      factorizeFor Arith.wrapping fuel (wrap32 (i + 1)) n' fs' := by
  simp only [factorizeFor, hle, if_true, hin, bind, Except.bind, iadd, int32_wrapping]

theorem factorizeFor_negative_run :
    ∀ (k fuel : Nat) (i : Int) (fs : List Int), i + (k : Int) = -1 → INT_MIN ≤ i →
      factorizeFor Arith.wrapping (fuel + k) i 1 fs =
        factorizeFor Arith.wrapping fuel (-1) 1 fs := by
  intro k
  induction k with
  | zero =>
    intro fuel i fs hi _
    have : i = -1 := by omega
    subst this
    rfl
  | succ k ih =>
    intro fuel i fs hi hmin
    have hi2 : i ≤ -2 := by push_cast at hi; omega
    have hle : i ≤ 1 := by omega
    have hw : wrap32 (i + 1) = i + 1 :=
      wrap32_of_inRange (by omega) (by unfold INT_MAX; omega)
    have hrec := ih fuel (i + 1) fs (by push_cast at hi ⊢; omega) (by omega)
    rw [← Nat.add_assoc,
      factorizeFor_step _ _ _ _ _ _ hle (factorizeWhile_one_neg (fuel + k + 1) i hi2 fs), hw]
    exact hrec

theorem factorizeFor_INT_MAX_run :
    ∀ (k fuel : Nat) (i : Int), i + (k : Int) = 2147483647 → 2 ≤ i →
      factorizeFor Arith.wrapping (fuel + 2147483647 + 1 + k) i 2147483647 [] =
        factorizeFor Arith.wrapping fuel (-1) 1 [2147483647] := by
  intro k
  induction k with
  | zero =>
    intro fuel i hi _
    have : i = 2147483647 := by omega
    subst this
    have hw : wrap32 (2147483647 + 1) = -2147483648 := by decide
    have hrec := factorizeFor_negative_run 2147483647 fuel (-2147483648) [2147483647]
      (by norm_num) (by unfold INT_MIN; omega)
    rw [Nat.add_zero,
      factorizeFor_step _ _ _ _ _ _ (le_refl _)
        (factorizeWhile_INT_MAX Arith.wrapping (fuel + 2147483647)), hw]
    exact hrec
  | succ k ih =>
    intro fuel i hi h2
    have hlt : i < 2147483647 := by push_cast at hi; omega
    have hle : i ≤ 2147483647 := by omega
    have hw : wrap32 (i + 1) = i + 1 :=
      wrap32_of_inRange (by unfold INT_MIN; omega) (by unfold INT_MAX; omega)
    have hrec := ih fuel (i + 1) (by push_cast at hi ⊢; omega) (by omega)
    rw [← Nat.add_assoc, factorizeFor_step _ _ _ _ _ _ hle
      (factorizeWhile_INT_MAX_lt Arith.wrapping (fuel + 2147483647 + 1 + k + 1) i h2 hlt), hw]
    exact hrec

theorem factorizeWhile_neg_one_pushes (f : Nat) (fs : List Int) :
    factorizeWhile Arith.wrapping (-1) (f + 2) 1 fs =
      factorizeWhile Arith.wrapping (-1) f 1 (fs ++ [-1] ++ [-1]) := by
  have hq : wrap32 (Int.tdiv 1 (-1)) = -1 := by decide
  have hr : Int.tmod 1 (-1) = 0 := by decide
  have hq' : wrap32 (Int.tdiv (-1) (-1)) = 1 := by decide
  have hr' : Int.tmod (-1) (-1) = 0 := by decide
  simp only [factorizeWhile, imod_wrapping _ (by decide : (-1 : Int) ≠ 0),
    idiv_wrapping _ (by decide : (-1 : Int) ≠ 0), bind, Except.bind, hr, if_true, hq, hr', hq']

/-- C3 (evaluation at the failing input): in wrapping 32-bit arithmetic the run of
`mobileFactorize(2147483647)` reaches, after 4294967293 passes of the outer loop, the
counter `i = -1` with `n = 1` and `factors = [2147483647]`; there every two iterations
of the inner loop push `-1` twice and come back to `n = 1`. The factor `-1` is not a
prime and is smaller than the factor before it, and no factor list is ever returned. -/
theorem factorsOf_INT_MAX_pushes_neg_one :
    (∀ fuel : Nat, factorsOf Arith.wrapping (fuel + 4294967293) 2147483647 =
      factorizeFor Arith.wrapping fuel (-1) 1 [2147483647]) ∧
    (∀ (f : Nat) (fs : List Int), factorizeWhile Arith.wrapping (-1) (f + 2) 1 fs =
      factorizeWhile Arith.wrapping (-1) f 1 (fs ++ [-1] ++ [-1])) ∧
    (∀ (fuel : Nat) (fs : List Int), factorsOf Arith.wrapping fuel 2147483647 ≠ Except.ok fs) := by
  refine ⟨?_, factorizeWhile_neg_one_pushes, ?_⟩
  · intro fuel
    have h := factorizeFor_INT_MAX_run 2147483645 fuel 2 (by norm_num) (by norm_num)
    have he : fuel + 2147483647 + 1 + 2147483645 = fuel + 4294967293 := by omega
    rw [he] at h
    exact h
  · intro fuel fs h
    have hd := factorizeFor_INT_MAX_diverges 2147483645 fuel 2 (by norm_num) (by norm_num)
    unfold factorsOf at h
    rw [hd] at h
    exact absurd h (by simp)

/-- C4 (evaluation at the failing input): `mobileFactorize(2147483647)` returns no
string at all, whatever number of loop iterations it is allowed: in wrapping 32-bit
arithmetic the division loop never ends, in checked arithmetic it stops with the
overflow of `i++`. -/
theorem mobileFactorize_INT_MAX_no_string (fuel : Nat) :
    mobileFactorize Arith.wrapping fuel 2147483647 = Except.error Fault.outOfFuel ∧
      mobileFactorize Arith.checked fuel 2147483647 =
        Except.error (if fuel ≤ 2147483645 then Fault.outOfFuel else Fault.overflow) := by
  have hd := factorizeFor_INT_MAX_diverges 2147483645 fuel 2 (by norm_num) (by norm_num)
  have hc := factorizeFor_INT_MAX_checked 2147483645 fuel 2 (by norm_num) (by norm_num)
  constructor
  · simp only [mobileFactorize, factorsOf, hd, bind, Except.bind]
  · simp only [mobileFactorize, factorsOf, hc, bind, Except.bind]

/-! ## `mobileFactorize` below `INT_MAX` -/

theorem factorizeWhile_spec (m : Arith) (i : Int) (hi : 2 ≤ i) :
    ∀ (g : Nat) (n : Int) (fs : List Int), 1 ≤ n → n ≤ INT_MAX → n + 1 ≤ i + g →
      ∃ (n' : Int) (v : Nat), factorizeWhile m i g n fs = Except.ok (n', fs ++ List.replicate v i) ∧
        1 ≤ n' ∧ n' ≤ n ∧ n = n' * i ^ v ∧ ¬ i ∣ n' ∧ (0 < v → i ∣ n) := by
  intro g
  induction g with
  | zero =>
    intro n fs h1 hM hg
    have hlt : n < i := by push_cast at hg; omega
    have hnd : ¬ i ∣ n := fun h => by have := Int.le_of_dvd (by omega) h; omega
    have hr : Int.tmod n i ≠ 0 := fun h => hnd (tmod_eq_zero_iff_dvd.mp h)
    refine ⟨n, 0, ?_, h1, le_refl _, by simp, hnd, by simp⟩
    simp [factorizeWhile, imod_of_pos m (by omega : 0 ≤ n) hM (by omega : 0 < i), hr, bind,
      Except.bind]
  | succ g ih =>
    intro n fs h1 hM hg
    by_cases hd : i ∣ n
    · have hr : Int.tmod n i = 0 := tmod_eq_zero_iff_dvd.mpr hd
      have hmul : i * (n / i) = n := Int.mul_ediv_cancel' hd
      have hq1 : 1 ≤ n / i := by
        have := Int.ediv_pos_of_pos_of_dvd (by omega : 0 < n) (by omega : 0 ≤ i) hd
        omega
      have hqn : n / i ≤ n := Int.ediv_le_self i (by omega)
      have hqg : n / i + 1 ≤ i + g := by
        push_cast at hg
        nlinarith
      obtain ⟨n', v, he, h1', hle, hprod, hnd, _⟩ := ih (n / i) (fs ++ [i]) hq1 (by omega) hqg
      refine ⟨n', v + 1, ?_, h1', by omega, ?_, hnd, fun _ => hd⟩
      · simp only [factorizeWhile, imod_of_pos m (by omega : 0 ≤ n) hM (by omega : 0 < i), hr,
          if_true, idiv_of_pos m (by omega : 0 ≤ n) hM (by omega : 0 < i), bind, Except.bind, he]
        simp [List.replicate_succ]
      · rw [← hmul, hprod, pow_succ]; ring
    · have hr : Int.tmod n i ≠ 0 := fun h => hd (tmod_eq_zero_iff_dvd.mp h)
      refine ⟨n, 0, ?_, h1, le_refl _, by simp, hd, by simp⟩
      simp [factorizeWhile, imod_of_pos m (by omega : 0 ≤ n) hM (by omega : 0 < i), hr, bind,
        Except.bind]


theorem prime_of_no_small_divisor {i n : Int} (hi : 2 ≤ i) (hd : i ∣ n)
    (hno : ∀ d : Int, 2 ≤ d → d < i → ¬ d ∣ n) : Nat.Prime i.toNat := by
  rw [Nat.prime_def_lt']
  refine ⟨by omega, ?_⟩
  intro k hk2 hklt hk
  have hcast : ((k : Int)) ∣ i := by
    have : (i.toNat : Int) = i := Int.toNat_of_nonneg (by omega)
    rw [← this]
    exact_mod_cast hk
  exact hno k (by omega) (by omega) (dvd_trans hcast hd)

theorem factorizeFor_spec (m : Arith) (n0 : Int) (hn0 : n0 < INT_MAX) :
    ∀ (f : Nat) (i n : Int) (fs : List Int), 2 ≤ i → 1 ≤ n → n ≤ n0 → n + 1 ≤ i + f →
      fs.prod * n = n0 → (∀ d : Int, 2 ≤ d → d < i → ¬ d ∣ n) →
      (∀ x ∈ fs, 2 ≤ x ∧ x < i ∧ Nat.Prime x.toNat) → fs.Pairwise (· ≤ ·) →
      ∃ out : List Int, factorizeFor m f i n fs = Except.ok out ∧ out.prod = n0 ∧
        (∀ x ∈ out, 2 ≤ x ∧ Nat.Prime x.toNat) ∧ out.Pairwise (· ≤ ·) := by
  have hexit : ∀ (i n : Int) (fs : List Int), 1 ≤ n → ¬ i ≤ n → fs.prod * n = n0 →
      (∀ d : Int, 2 ≤ d → d < i → ¬ d ∣ n) →
      (∀ x ∈ fs, 2 ≤ x ∧ x < i ∧ Nat.Prime x.toNat) → fs.Pairwise (· ≤ ·) →
      fs.prod = n0 ∧ (∀ x ∈ fs, 2 ≤ x ∧ Nat.Prime x.toNat) ∧ fs.Pairwise (· ≤ ·) := by
    intro i n fs h1 hgt hprod hno hmem hsort
    have hn1 : n = 1 := by
      by_contra hne
      exact hno n (by omega) (by omega) (dvd_refl n)
    subst hn1
    exact ⟨by simpa using hprod, fun x hx => ⟨(hmem x hx).1, (hmem x hx).2.2⟩, hsort⟩
  intro f
  induction f with
  | zero =>
    intro i n fs _ h1 _ hf hprod hno hmem hsort
    have hgt : ¬ i ≤ n := by push_cast at hf; omega
    exact ⟨fs, by simp [factorizeFor, hgt], hexit i n fs h1 hgt hprod hno hmem hsort⟩
  | succ f ih =>
    intro i n fs hi h1 hle hf hprod hno hmem hsort
    by_cases hin : i ≤ n
    · obtain ⟨n', v, he, h1', hle', hpow, hnd, hv⟩ :=
        factorizeWhile_spec m i hi (f + 1) n fs h1 (by omega) hf
      have hnext : iadd m i 1 = Except.ok (i + 1) :=
        int32_of_inRange m (by unfold INT_MIN; omega) (by omega)
      have hdvd : n' ∣ n := ⟨i ^ v, hpow⟩
      obtain ⟨out, hout, hrest⟩ := ih (i + 1) n' (fs ++ List.replicate v i) (by omega) h1'
        (by omega) (by push_cast at hf ⊢; omega)
        (by rw [List.prod_append, List.prod_replicate, mul_assoc, mul_comm (i ^ v), ← hpow]
            exact hprod)
        (by
          intro d hd2 hdlt hdn
          rcases lt_or_eq_of_le (by omega : d ≤ i) with hlt | heq
          · exact hno d hd2 hlt (dvd_trans hdn hdvd)
          · exact hnd (heq ▸ hdn))
        (by
          intro x hx
          rcases List.mem_append.mp hx with hx | hx
          · exact ⟨(hmem x hx).1, by have := (hmem x hx).2.1; omega, (hmem x hx).2.2⟩
          · obtain ⟨hv0, rfl⟩ := List.mem_replicate.mp hx
            exact ⟨hi, by omega, prime_of_no_small_divisor hi (hv (by omega)) hno⟩)
        (by
          rw [List.pairwise_append]
          refine ⟨hsort, by simp, ?_⟩
          intro a ha b hb
          obtain ⟨_, rfl⟩ := List.mem_replicate.mp hb
          have := (hmem a ha).2.1
          omega)
      refine ⟨out, ?_, hrest⟩
      simp only [factorizeFor, hin, if_true, he, hnext, bind, Except.bind]
      exact hout
    · exact ⟨fs, by simp [factorizeFor, hin], hexit i n fs h1 hin hprod hno hmem hsort⟩

/-- For every `n` with `1 <= n < INT_MAX` the division loop of `mobileFactorize(n)`
ends within `n - 1` passes of the outer loop, in checked arithmetic as in wrapping
arithmetic, and the factors it has built are primes in ascending order whose product
is `n`. -/
theorem factorsOf_spec (m : Arith) (n : Int) (h1 : 1 ≤ n) (h2 : n < INT_MAX) (fuel : Nat)
    (hf : n ≤ fuel + 1) :
    ∃ fs : List Int, factorsOf m fuel n = Except.ok fs ∧ fs.prod = n ∧
      (∀ x ∈ fs, 2 ≤ x ∧ Nat.Prime x.toNat) ∧ fs.Pairwise (· ≤ ·) :=
  factorizeFor_spec m n h2 fuel 2 n [] (le_refl _) h1 (le_refl _) (by omega) (by simp)
    (fun d hd2 hdlt => by omega) (by simp) (by simp)

/-! ## Rendering of `mobileFactorize`, `mobileCreateUser` -/

theorem intercalate_cons_cons (sep d e : List Char) (ds : List (List Char)) :
    List.intercalate sep (d :: e :: ds) = d ++ sep ++ List.intercalate sep (e :: ds) := by
  simp [List.intercalate, List.intersperse]

theorem renderFactors_succ (fs : List Int) :
    ∀ (i : Nat) (oss : List Char), renderFactors fs (i + 1) oss =
      oss ++ (fs.map (fun f => ", ".toList ++ decimal f)).flatten := by
  induction fs with
  | nil => intro i oss; simp [renderFactors]
  | cons f rest ih =>
    intro i oss
    simp [renderFactors, ih, List.append_assoc]

theorem intercalate_decimal (f : Int) (rest : List Int) :
    List.intercalate ", ".toList ((f :: rest).map decimal) =
      decimal f ++ (rest.map (fun g => ", ".toList ++ decimal g)).flatten := by
  induction rest generalizing f with
  | nil => simp [List.intercalate]
  | cons g rest ih =>
    rw [List.map_cons, List.map_cons, intercalate_cons_cons, ← List.map_cons, ih g]
    simp [List.append_assoc]

theorem renderFactors_zero (fs : List Int) (oss : List Char) :
    renderFactors fs 0 oss = oss ++ List.intercalate ", ".toList (fs.map decimal) := by
  cases fs with
  | nil => simp [renderFactors, List.intercalate]
  | cons f rest =>
    rw [intercalate_decimal]
    simp [renderFactors, renderFactors_succ, List.append_assoc]

theorem mobileFactorize_eq_render (m : Arith) (fuel : Nat) (n : Int) :
    mobileFactorize m fuel n =
      (factorsOf m fuel n).map (fun fs => "Factors of ".toList ++ decimal n ++ ": ".toList ++
        List.intercalate ", ".toList (fs.map decimal)) := by
  unfold mobileFactorize
  cases h : factorsOf m fuel n with
  | error e => rfl
  | ok fs => simp [bind, Except.bind, pure, Except.pure, Except.map, renderFactors_zero]

/-- For every `n` with `1 <= n < INT_MAX`, `mobileFactorize(n)` returns, within `n - 1`
passes of its outer loop, the label written from the original `n` followed by the
prime factors of `n` in ascending order, separated by `, `. -/
theorem mobileFactorize_spec (m : Arith) (n : Int) (h1 : 1 ≤ n) (h2 : n < INT_MAX) (fuel : Nat)
    (hf : n ≤ fuel + 1) :
    ∃ fs : List Int, mobileFactorize m fuel n = Except.ok ("Factors of ".toList ++ decimal n ++
        ": ".toList ++ List.intercalate ", ".toList (fs.map decimal)) ∧ fs.prod = n ∧
      (∀ x ∈ fs, 2 ≤ x ∧ Nat.Prime x.toNat) ∧ fs.Pairwise (· ≤ ·) := by
  obtain ⟨fs, hfs, hrest⟩ := factorsOf_spec m n h1 h2 fuel hf
  refine ⟨fs, ?_, hrest⟩
  rw [mobileFactorize_eq_render, hfs]
  rfl

/-- The examples of the specification for `mobileFactorize`. -/
theorem mobileFactorize_examples :
    mobileFactorize Arith.checked 13 12 = Except.ok "Factors of 12: 2, 2, 3".toList ∧
      mobileFactorize Arith.checked 13 13 = Except.ok "Factors of 13: 13".toList := by
  decide

/-- C5: for every `n <= 1` the division loop of `mobileFactorize(n)` runs zero times
(the result needs no fuel), no factor is extracted, and the string returned is the
label `Factors of <n>: ` with nothing after it, in either arithmetic mode. -/
theorem mobileFactorize_no_factors (n : Int) (hn : n ≤ 1) (m : Arith) (fuel : Nat) :
    factorsOf m fuel n = Except.ok [] ∧
      mobileFactorize m fuel n = Except.ok ("Factors of ".toList ++ decimal n ++ ": ".toList) := by
  have h2 : ¬ ((2 : Int) ≤ n) := by omega
  have hf : factorsOf m fuel n = Except.ok [] := by
    unfold factorsOf
    cases fuel <;> simp [factorizeFor, h2]
  refine ⟨hf, ?_⟩
  rw [mobileFactorize_eq_render, hf]
  simp [Except.map, List.intercalate]

/-- Witness for C5 at `n = -7`, with fuel 0. -/
theorem mobileFactorize_no_factors_witness :
    (-7 : Int) ≤ 1 ∧ factorsOf Arith.wrapping 0 (-7) = Except.ok [] ∧
      mobileFactorize Arith.wrapping 0 (-7) =
        Except.ok ("Factors of ".toList ++ decimal (-7) ++ ": ".toList) ∧
      "Factors of ".toList ++ decimal (-7) ++ ": ".toList = "Factors of -7: ".toList :=
  ⟨by decide, (mobileFactorize_no_factors (-7) (by decide) Arith.wrapping 0).1,
    (mobileFactorize_no_factors (-7) (by decide) Arith.wrapping 0).2, by decide⟩

/-- C7: `mobileCreateUser(id, name, email)` is exactly the concatenation of
`User{id: `, the decimal rendering of `id`, `, name: "`, `name`, `", email: "`, `email`
and `"}`; `name` and `email` are copied as they are, so the length of the result is
the sum of the three lengths and of the 31 fixed characters. -/
theorem mobileCreateUser_format (id : Int) (name email : List Char) :
    mobileCreateUser id name email =
      "User\x7bid: ".toList ++ decimal id ++ ", name: \"".toList ++ name ++
        "\", email: \"".toList ++ email ++ "\"\x7d".toList ∧
    (mobileCreateUser id name email).length =
      (decimal id).length + name.length + email.length + 31 := by
  constructor
  · simp [mobileCreateUser, put]
  · simp [mobileCreateUser, put]
    omega

/-- The example of the specification for `mobileCreateUser`. -/
theorem mobileCreateUser_example :
    mobileCreateUser 1 "Ann".toList "a@b.com".toList =
      "User\x7bid: 1, name: \"Ann\", email: \"a@b.com\"\x7d".toList := by
  decide

/-! ## `mobileValidateEmail` -/

theorem find_spec (s : List Char) (c : Char) (pos q : Nat) (hlen : s.length < npos) :
    (find s c pos = q ∧ q ≠ npos) ↔
      (pos ≤ q ∧ s[q]? = some c ∧ ∀ j, pos ≤ j → j < q → s[j]? ≠ some c) := by
  constructor
  · rintro ⟨hq, hne⟩
    unfold find at hq
    split_ifs at hq with hk
    · subst hq
      refine ⟨Nat.le_add_right _ _, ?_, ?_⟩
      · rw [← List.getElem?_drop, List.getElem?_eq_getElem hk, List.getElem_indexOf hk]
      · intro j hj1 hj2
        obtain ⟨t, rfl⟩ := Nat.exists_eq_add_of_le hj1
        have ht : t < List.indexOf c (List.drop pos s) := by omega
        have htl : t < (List.drop pos s).length := by omega
        rw [← List.getElem?_drop, List.getElem?_eq_getElem htl]
        have hne' := List.not_of_lt_findIdx ht
        intro h
        have heq : (List.drop pos s)[t] = c := Option.some.inj h
        simp [heq] at hne'
    · exact absurd hq.symm hne
  · rintro ⟨hpq, hc, hfirst⟩
    obtain ⟨t, rfl⟩ := Nat.exists_eq_add_of_le hpq
    have hqlt : pos + t < s.length := by
      by_contra hcon
      rw [List.getElem?_eq_none (by omega)] at hc
      exact absurd hc (by simp)
    have htl : t < (List.drop pos s).length := by simp; omega
    have hct : (List.drop pos s)[t] = c := by
      have : (List.drop pos s)[t]? = some c := by rw [List.getElem?_drop]; exact hc
      rw [List.getElem?_eq_getElem htl] at this
      exact Option.some.inj this
    have hidx : List.indexOf c (List.drop pos s) = t := by
      unfold List.indexOf
      rw [List.findIdx_eq htl]
      refine ⟨by simp [hct], ?_⟩
      intro j hj
      have hjl : j < (List.drop pos s).length := by omega
      have h1 := hfirst (pos + j) (by omega) (by omega)
      rw [← List.getElem?_drop, List.getElem?_eq_getElem hjl] at h1
      have h3 : (List.drop pos s)[j] ≠ c := fun h => h1 (by rw [h])
      simpa using h3
    refine ⟨?_, by omega⟩
    unfold find
    rw [hidx, if_pos htl]


theorem lt_length_of_getElem_some {s : List Char} {q : Nat} {c : Char} (h : s[q]? = some c) :
    q < s.length := by
  by_contra hcon
  rw [List.getElem?_eq_none (by omega)] at h
  exact absurd h (by simp)

theorem mobileValidateEmail_eq_one_iff (s : List Char) (hlen : s.length < npos) :
    mobileValidateEmail s = 1 ↔
      ∃ p q : Nat, s[p]? = some '@' ∧ (∀ j, j < p → s[j]? ≠ some '@') ∧
        p ≤ q ∧ s[q]? = some '.' ∧ (∀ j, p ≤ j → j < q → s[j]? ≠ some '.') ∧
        0 < p ∧ p + 1 < q ∧ q < s.length - 1 := by
  have hnp : npos = 18446744073709551615 := rfl
  constructor
  · intro h
    unfold mobileValidateEmail at h
    simp only at h
    split_ifs at h with hc
    · obtain ⟨h1, h2, h3, h4, h5⟩ := hc
      obtain ⟨_, ha, hfa⟩ := (find_spec s '@' 0 _ hlen).mp ⟨rfl, h1⟩
      obtain ⟨hle, hd, hfd⟩ := (find_spec s '.' _ _ hlen).mp ⟨rfl, h2⟩
      have hal := lt_length_of_getElem_some ha
      have hdl := lt_length_of_getElem_some hd
      refine ⟨_, _, ha, fun j hj => hfa j (Nat.zero_le _) hj, hle, hd, hfd, h3, ?_, ?_⟩
      · omega
      · omega
    · exact absurd h (by decide)
  · rintro ⟨p, q, ha, hfa, hle, hd, hfd, hp, hpq, hq⟩
    obtain ⟨e1, n1⟩ :=
      (find_spec s '@' 0 p hlen).mpr ⟨Nat.zero_le _, ha, fun j _ hj => hfa j hj⟩
    obtain ⟨e2, n2⟩ := (find_spec s '.' p q hlen).mpr ⟨hle, hd, hfd⟩
    have hdl := lt_length_of_getElem_some hd
    unfold mobileValidateEmail
    simp only [e1, e2]
    rw [if_pos]
    refine ⟨n1, n2, hp, ?_, ?_⟩ <;> omega

theorem mobileValidateEmail_one_or_zero (s : List Char) :
    mobileValidateEmail s = 1 ∨ mobileValidateEmail s = 0 := by
  unfold mobileValidateEmail
  simp only
  split_ifs
  · exact Or.inl rfl
  · exact Or.inr rfl

/-- C6 (as amended): `mobileValidateEmail(s)` returns 1 exactly when the FIRST `@` of
`s` is at an index `p > 0` and the FIRST `.` at an index `>= p` is at an index `q` with
`q > p + 1` and `q < length(s) - 1`; otherwise it returns 0. -/
theorem mobileValidateEmail_first_occurrences (s : List Char) (hlen : s.length < npos) :
    (mobileValidateEmail s = 1 ↔
      ∃ p q : Nat, s[p]? = some '@' ∧ (∀ j, j < p → s[j]? ≠ some '@') ∧
        p ≤ q ∧ s[q]? = some '.' ∧ (∀ j, p ≤ j → j < q → s[j]? ≠ some '.') ∧
        0 < p ∧ p + 1 < q ∧ q < s.length - 1) ∧
    (mobileValidateEmail s ≠ 1 → mobileValidateEmail s = 0) :=
  ⟨mobileValidateEmail_eq_one_iff s hlen,
    fun h => (mobileValidateEmail_one_or_zero s).resolve_left h⟩

/-- Witness for the amended C6: `a@b.com` is accepted, with `p = 1` and `q = 3`. -/
theorem mobileValidateEmail_first_occurrences_witness :
    "a@b.com".toList.length < npos ∧ mobileValidateEmail "a@b.com".toList = 1 :=
  ⟨by decide,
    (mobileValidateEmail_first_occurrences "a@b.com".toList (by decide)).1.mpr
      ⟨1, 3, by decide⟩⟩

/-- Counterexample to C6 as stated: in `a@.b.c` the `@` at index 1 and the `.` at
index 4 satisfy the stated condition, yet the string is rejected, because the first
`.` after the `@` directly follows it. -/
theorem mobileValidateEmail_not_existential :
    mobileValidateEmail "a@.b.c".toList = 0 ∧
      ∃ p q : Nat, 0 < p ∧ "a@.b.c".toList[p]? = some '@' ∧ "a@.b.c".toList[q]? = some '.' ∧
        q > p + 1 ∧ q < "a@.b.c".toList.length - 1 :=
  ⟨by decide, 1, 4, by decide⟩

/-- The examples of the specification for `mobileValidateEmail`. -/
theorem mobileValidateEmail_examples :
    mobileValidateEmail "a@b.com".toList = 1 ∧ mobileValidateEmail "a@.com".toList = 0 ∧
      mobileValidateEmail "abc".toList = 0 ∧ mobileValidateEmail "a@b.".toList = 0 := by
  decide

/-! ## `addNumbers`, `mobileFibonacci` -/

theorem fib_le_INT_MAX {k : Nat} (hk : k ≤ 46) : (Nat.fib k : Int) ≤ INT_MAX := by
  have h1 : Nat.fib k ≤ Nat.fib 46 := Nat.fib_mono hk
  have h2 : Nat.fib 46 = 1836311903 := by norm_num
  unfold INT_MAX
  omega

theorem fibonacciLoop_spec (m : Arith) (n : Nat) (hn : n ≤ 46) :
    ∀ (d j fuel : Nat), j + d + 1 = n → d ≤ fuel →
      fibonacciLoop m (n : Int) fuel ((j : Int) + 2) (Nat.fib j : Int) (Nat.fib (j + 1) : Int)
        = Except.ok (Nat.fib n : Int) := by
  intro d
  induction d with
  | zero =>
    intro j fuel hj _
    have hlt : ¬ ((j : Int) + 2 ≤ (n : Int)) := by omega
    have hb : j + 1 = n := by omega
    cases fuel <;> simp [fibonacciLoop, hlt, hb]
  | succ d ih =>
    intro j fuel hj hf
    obtain ⟨f, rfl⟩ : ∃ f, fuel = f + 1 := ⟨fuel - 1, by omega⟩
    have hle : (j : Int) + 2 ≤ (n : Int) := by omega
    have hsum : (Nat.fib j : Int) + (Nat.fib (j + 1) : Int) = (Nat.fib (j + 2) : Int) := by
      rw [Nat.fib_add_two]; push_cast; ring
    have hr1 : (Nat.fib (j + 2) : Int) ≤ INT_MAX := fib_le_INT_MAX (by omega)
    have hr0 : INT_MIN ≤ (Nat.fib (j + 2) : Int) := by unfold INT_MIN; omega
    have hi1 : INT_MIN ≤ (j : Int) + 2 + 1 := by unfold INT_MIN; omega
    have hi2 : (j : Int) + 2 + 1 ≤ INT_MAX := by unfold INT_MAX; omega
    have hstep := ih (j + 1) f (by omega) (by omega)
    simp only [fibonacciLoop, hle, if_true, iadd, hsum, int32_of_inRange m hr0 hr1,
      int32_of_inRange m hi1 hi2, bind, Except.bind]
    have hc : ((j : Int) + 2 + 1) = (((j + 1 : Nat) : Int) + 2) := by push_cast; ring
    rw [hc]
    exact hstep

/-- C8: for `0 <= n <= 46` `mobileFibonacci(n)` is the `n`-th Fibonacci number, in
wrapping arithmetic and in checked arithmetic alike (so no addition of the loop
leaves the 32-bit signed range), as soon as the loop is allowed its `n - 1`
iterations. -/
theorem mobileFibonacci_eq_fib (n : Int) (h0 : 0 ≤ n) (h46 : n ≤ 46) (m : Arith) (fuel : Nat)
    (hf : n.toNat - 1 ≤ fuel) :
    mobileFibonacci m fuel n = Except.ok (Nat.fib n.toNat : Int) := by
  obtain ⟨k, rfl⟩ := Int.eq_ofNat_of_zero_le h0
  simp only [Int.toNat_ofNat] at hf ⊢
  have hk : k ≤ 46 := by omega
  by_cases h1 : k ≤ 1
  · have : k = 0 ∨ k = 1 := by omega
    rcases this with rfl | rfl <;> simp [mobileFibonacci]
  · have hn1 : ¬ ((k : Int) ≤ 1) := by omega
    have := fibonacciLoop_spec m k hk (k - 1) 0 fuel (by omega) hf
    simpa [mobileFibonacci, hn1] using this

/-- Witness for C8 at `n = 10`: the result is 55 with no overflow. -/
theorem mobileFibonacci_eq_fib_witness :
    (0 : Int) ≤ 10 ∧ (10 : Int) ≤ 46 ∧ (10 : Int).toNat - 1 ≤ 9 ∧
      mobileFibonacci Arith.checked 9 10 = Except.ok (Nat.fib (10 : Int).toNat : Int) ∧
      Nat.fib 10 = 55 :=
  ⟨by decide, by decide, by decide,
    mobileFibonacci_eq_fib 10 (by decide) (by decide) Arith.checked 9 (by decide), by decide⟩

/-- C9 (as amended): for every negative `n` the guard `if (n <= 1) return n;` returns
`n` itself before the loop is reached; the result does not depend on the fuel, and
is produced with fuel 0, that is with zero loop iterations. -/
theorem mobileFibonacci_negative (n : Int) (hn : n < 0) (m : Arith) (fuel : Nat) :
    mobileFibonacci m fuel n = Except.ok n := by
  have h : n ≤ 1 := by omega
  simp [mobileFibonacci, h]

/-- Witness for the amended C9 at `n = -5`. -/
theorem mobileFibonacci_negative_witness :
    (-5 : Int) < 0 ∧ mobileFibonacci Arith.wrapping 0 (-5) = Except.ok (-5) :=
  ⟨by decide, mobileFibonacci_negative (-5) (by decide) Arith.wrapping 0⟩

/-- Counterexample to C9 as stated: `mobileFibonacci(-5)` is `-5`, not the initial
accumulator `0`. -/
theorem mobileFibonacci_negative_not_zero :
    (-5 : Int) < 0 ∧ mobileFibonacci Arith.wrapping 0 (-5) = Except.ok (-5) ∧
      mobileFibonacci Arith.wrapping 0 (-5) ≠ Except.ok 0 := by
  decide

/-- C10: on 32-bit arguments `addNumbers(a, b)` in wrapping arithmetic is the sum
`a + b` brought back into the signed 32-bit range by a multiple of `2^32`: the sum
itself when it is in range, the sum minus `2^32` above `INT_MAX`, the sum plus
`2^32` below `INT_MIN`; the JNI entry point returns the same value. -/
theorem addNumbers_wraps (a b : Int) (ha : INT_MIN ≤ a ∧ a ≤ INT_MAX)
    (hb : INT_MIN ≤ b ∧ b ≤ INT_MAX) (st : BridgeState) :
    ∃ r : Int, addNumbers Arith.wrapping a b = Except.ok r ∧
      (nativeAddNumbers Arith.wrapping st a b).2 = Except.ok r ∧
      INT_MIN ≤ r ∧ r ≤ INT_MAX ∧ (r - (a + b)) % 4294967296 = 0 ∧
      r = (if a + b > INT_MAX then a + b - 4294967296
           else if a + b < INT_MIN then a + b + 4294967296 else a + b) := by
  refine ⟨wrap32 (a + b), rfl, rfl, wrap32_ge _, wrap32_le _, wrap32_congr _, ?_⟩
  unfold INT_MIN INT_MAX at *
  unfold wrap32
  split_ifs <;> omega

/-- Witness for C10 at the overflowing pair `(2147483647, 1)`, whose result is
`-2147483648`. -/
theorem addNumbers_wraps_witness :
    (INT_MIN ≤ 2147483647 ∧ (2147483647 : Int) ≤ INT_MAX) ∧ (INT_MIN ≤ 1 ∧ (1 : Int) ≤ INT_MAX) ∧
      addNumbers Arith.wrapping 2147483647 1 = Except.ok (-2147483648) := by
  refine ⟨by decide, by decide, ?_⟩
  obtain ⟨r, h1, _, _, _, _, h6⟩ :=
    addNumbers_wraps 2147483647 1 (by decide) (by decide) initialState
  rw [h1, h6]
  decide

/-! ## `mobileIsPrime` between `46337^2` and `INT_MAX` -/

theorem tmod_prime_ne_zero {n i : Int} (hp : Nat.Prime n.toNat) (h2 : 2 ≤ i) (hlt : i < n) :
    Int.tmod n i ≠ 0 :=
  fun h => not_prime_of_int_dvd h2 hlt (Int.dvd_of_tmod_eq_zero h) hp

/-- A composite `n >= 46337^2` below `2^31` has a divisor that the loop meets before
`i * i` can overflow. -/
theorem isPrimeLoop_composite (m : Arith) (n : Int) (hlo : 2147117569 ≤ n)
    (hhi : n ≤ 2147483647) (h2 : ¬ (2 : Int) ∣ n) (h3 : ¬ (3 : Int) ∣ n)
    (hc : ¬ Nat.Prime n.toNat) :
    ∀ (fuel : Nat) (i : Int), 5 ≤ i → i % 6 = 5 → i ≤ 46343 →
      (∀ d : Int, 2 ≤ d → d < i → ¬ d ∣ n) → 46344 ≤ i + 6 * (fuel : Int) →
      isPrimeLoop m n fuel i = Except.ok 0 := by
  intro fuel
  induction fuel with
  | zero => intro i _ _ hi _ hf; simp at hf; omega
  | succ fuel ih =>
    intro i h5 hmod hiM hno hf
    by_cases hi : i ≤ 46337
    · have hsqM : i * i ≤ INT_MAX := by unfold INT_MAX; nlinarith
      have hsq0 : INT_MIN ≤ i * i := by unfold INT_MIN; nlinarith
      have hmul : imul m i i = Except.ok (i * i) := int32_of_inRange m hsq0 hsqM
      have hnM : n ≤ INT_MAX := hhi
      have hle : i * i ≤ n := by nlinarith
      have hilt : i < n := by omega
      have hi2lt : i + 2 < n := by omega
      have hm1 : imod m n i = Except.ok (Int.tmod n i) := imod_of_pos m (by omega) hnM (by omega)
      have ha2 : iadd m i 2 = Except.ok (i + 2) :=
        int32_of_inRange m (by unfold INT_MIN; omega) (by unfold INT_MAX; omega)
      have hm2 : imod m n (i + 2) = Except.ok (Int.tmod n (i + 2)) :=
        imod_of_pos m (by omega) hnM (by omega)
      have ha6 : iadd m i 6 = Except.ok (i + 6) :=
        int32_of_inRange m (by unfold INT_MIN; omega) (by unfold INT_MAX; omega)
      by_cases hd1 : i ∣ n
      · simp [isPrimeLoop, hmul, hle, hm1, tmod_eq_zero_iff_dvd.mpr hd1, bind, Except.bind]
      · have hr1 : Int.tmod n i ≠ 0 := fun h => hd1 (tmod_eq_zero_iff_dvd.mp h)
        by_cases hd2 : (i + 2) ∣ n
        · simp [isPrimeLoop, hmul, hle, hm1, hr1, ha2, hm2, tmod_eq_zero_iff_dvd.mpr hd2,
            bind, Except.bind]
        · have hr2 : Int.tmod n (i + 2) ≠ 0 := fun h => hd2 (tmod_eq_zero_iff_dvd.mp h)
          have hrec := ih (i + 6) (by omega) (by omega) (by omega)
            (by
              intro d hd2' hdlt hdn
              by_cases hlt : d < i
              · exact hno d hd2' hlt hdn
              · have hcases : d = i ∨ d = i + 2 ∨ d % 2 = 0 ∨ d % 3 = 0 := by omega
                rcases hcases with rfl | rfl | he | he
                · exact hd1 hdn
                · exact hd2 hdn
                · exact h2 (dvd_trans (Int.dvd_of_emod_eq_zero he) hdn)
                · exact h3 (dvd_trans (Int.dvd_of_emod_eq_zero he) hdn))
            (by push_cast at hf ⊢; omega)
          simp only [isPrimeLoop, hmul, hle, if_true, hm1, hr1, if_false, ha2, hm2, hr2, ha6,
            bind, Except.bind, hrec]
    · have hi' : i = 46343 := by omega
      subst hi'
      exact absurd
        (prime_of_no_divisor_below (by omega) (by decide) (by omega : n < 46343 * 46343) hno) hc

/-- The counter `i = 1553514677` is of the form `6k + 5` and its square wraps to
`2147483641`, which exceeds every prime below `INT_MAX`. -/
theorem wrap32_sq_1553514677 : wrap32 (1553514677 * 1553514677) = 2147483641 := by decide

/-- A prime `n` with `1553514677 <= n < 2147483641`: in wrapping arithmetic the loop
finds no divisor and leaves through `i * i <= n` at `i = 1553514677` at the latest. -/
theorem isPrimeLoop_prime_wrapping (n : Int) (hp : Nat.Prime n.toNat) (hlo : 1553514677 ≤ n)
    (hhi : n < 2147483641) :
    ∀ (k fuel : Nat) (i : Int), i + 6 * (k : Int) = 1553514677 → 5 ≤ i → k ≤ fuel →
      isPrimeLoop Arith.wrapping n fuel i = Except.ok 1 := by
  have hexit : ∀ (fuel : Nat) (i : Int), ¬ wrap32 (i * i) ≤ n →
      isPrimeLoop Arith.wrapping n fuel i = Except.ok 1 := by
    intro fuel i h
    cases fuel <;> simp [isPrimeLoop, imul, int32_wrapping, h, bind, Except.bind]
  intro k
  induction k with
  | zero =>
    intro fuel i hi _ _
    have hi' : i = 1553514677 := by omega
    subst hi'
    apply hexit
    rw [wrap32_sq_1553514677]
    omega
  | succ k ih =>
    intro fuel i hi h5 hf
    by_cases hsq : wrap32 (i * i) ≤ n
    · obtain ⟨f, rfl⟩ : ∃ f, fuel = f + 1 := ⟨fuel - 1, by omega⟩
      have hic : i + 6 ≤ 1553514677 := by push_cast at hi; omega
      have hi0 : i ≠ 0 := by omega
      have hr1 : Int.tmod n i ≠ 0 := tmod_prime_ne_zero hp (by omega) (by omega)
      have hw2 : wrap32 (i + 2) = i + 2 :=
        wrap32_of_inRange (by unfold INT_MIN; omega) (by unfold INT_MAX; omega)
      have hi2 : i + 2 ≠ 0 := by omega
      have hr2 : Int.tmod n (i + 2) ≠ 0 := tmod_prime_ne_zero hp (by omega) (by omega)
      have hw6 : wrap32 (i + 6) = i + 6 :=
        wrap32_of_inRange (by unfold INT_MIN; omega) (by unfold INT_MAX; omega)
      have hrec := ih f (i + 6) (by push_cast at hi ⊢; omega) (by omega) (by omega)
      simp only [isPrimeLoop, imul, iadd, int32_wrapping, bind, Except.bind, hsq, if_true,
        imod_wrapping _ hi0, hr1, if_false, hw2, imod_wrapping _ hi2, hr2, hw6, hrec]
    · exact hexit fuel i hsq

/-- In wrapping arithmetic `mobileIsPrime(n)` decides primality for every `n` below
`INT_MAX`: within 258919113 iterations it returns 1 when `n` is prime and 0 otherwise. -/
theorem mobileIsPrime_wrapping_spec (n : Int) (h0 : INT_MIN ≤ n) (hn : n < 2147483647)
    (fuel : Nat) (hf : 258919113 ≤ fuel) :
    mobileIsPrime Arith.wrapping fuel n = Except.ok (if Nat.Prime n.toNat then 1 else 0) := by
  by_cases hsmall : n ≤ 2147117568
  · exact mobileIsPrime_spec Arith.wrapping n h0 hsmall fuel (by omega)
  · have h1 : ¬ n ≤ 1 := by omega
    have h3 : ¬ n ≤ 3 := by omega
    have hnM : n ≤ INT_MAX := by unfold INT_MAX; omega
    have hm2 : imod Arith.wrapping n 2 = Except.ok (Int.tmod n 2) :=
      imod_of_pos _ (by omega) hnM (by omega)
    have hm3 : imod Arith.wrapping n 3 = Except.ok (Int.tmod n 3) :=
      imod_of_pos _ (by omega) hnM (by omega)
    by_cases hd2 : (2 : Int) ∣ n
    · have hnp := not_prime_of_int_dvd (le_refl _) (by omega) hd2
      simp [mobileIsPrime, h1, h3, hm2, tmod_eq_zero_iff_dvd.mpr hd2, hnp, bind, Except.bind]
    · have hr2 : Int.tmod n 2 ≠ 0 := fun h => hd2 (tmod_eq_zero_iff_dvd.mp h)
      by_cases hd3 : (3 : Int) ∣ n
      · have hnp := not_prime_of_int_dvd (by omega) (by omega) hd3
        simp [mobileIsPrime, h1, h3, hm2, hr2, hm3, tmod_eq_zero_iff_dvd.mpr hd3, hnp, bind,
          Except.bind]
      · have hr3 : Int.tmod n 3 ≠ 0 := fun h => hd3 (tmod_eq_zero_iff_dvd.mp h)
        have hsmalldiv : ∀ d : Int, 2 ≤ d → d < 5 → ¬ d ∣ n := by
          intro d hd2' hdlt hdn
          have hcases : d = 2 ∨ d = 3 ∨ d = 4 := by omega
          rcases hcases with rfl | rfl | rfl
          · exact hd2 hdn
          · exact hd3 hdn
          · exact hd2 (dvd_trans (by decide) hdn)
        by_cases hp : Nat.Prime n.toNat
        · have hlt : n < 2147483641 := by
            by_contra hcon
            have hcases : n = 2147483641 ∨ n = 2147483645 := by omega
            rcases hcases with rfl | rfl
            · exact not_prime_of_int_dvd (d := 2699) (by decide) (by decide)
                ⟨795659, by decide⟩ hp
            · exact not_prime_of_int_dvd (d := 5) (by decide) (by decide)
                ⟨429496729, by decide⟩ hp
          have hloop := isPrimeLoop_prime_wrapping n hp (by omega) hlt 258919112 fuel 5
            (by norm_num) (le_refl _) (by omega)
          simp only [mobileIsPrime, h1, h3, if_false, hm2, hr2, hm3, hr3, bind, Except.bind,
            hloop, hp, if_true]
        · have hloop := isPrimeLoop_composite Arith.wrapping n (by omega) (by omega) hd2 hd3 hp
            fuel 5 (le_refl _) (by decide) (by decide) hsmalldiv (by omega)
          simp only [mobileIsPrime, h1, h3, if_false, hm2, hr2, hm3, hr3, bind, Except.bind,
            hloop, hp]

/-! ## `mobileFibonacci` beyond `n = 46` -/

theorem wrap32_add_wrap32 (x y : Int) : wrap32 (wrap32 x + wrap32 y) = wrap32 (x + y) := by
  unfold wrap32; omega

theorem fibonacciLoop_step_wrapping (n : Int) (fuel : Nat) (i a b : Int) (h : i ≤ n) :
    fibonacciLoop Arith.wrapping n (fuel + 1) i a b =
      fibonacciLoop Arith.wrapping n fuel (wrap32 (i + 1)) b (wrap32 (a + b)) := by
  simp only [fibonacciLoop, h, if_true, iadd, int32_wrapping, bind, Except.bind]

theorem fibonacciLoop_wrapping (n : Nat) (hn : (n : Int) < INT_MAX) :
    ∀ (d j fuel : Nat), j + d + 1 = n → d ≤ fuel →
      fibonacciLoop Arith.wrapping (n : Int) fuel ((j : Int) + 2) (wrap32 (Nat.fib j))
        (wrap32 (Nat.fib (j + 1))) = Except.ok (wrap32 (Nat.fib n)) := by
  intro d
  induction d with
  | zero =>
    intro j fuel hj _
    have hlt : ¬ ((j : Int) + 2 ≤ (n : Int)) := by omega
    have hb : j + 1 = n := by omega
    cases fuel <;> simp [fibonacciLoop, hlt, hb]
  | succ d ih =>
    intro j fuel hj hf
    obtain ⟨f, rfl⟩ : ∃ f, fuel = f + 1 := ⟨fuel - 1, by omega⟩
    have hle : (j : Int) + 2 ≤ (n : Int) := by omega
    have hsum : wrap32 (wrap32 (Nat.fib j) + wrap32 (Nat.fib (j + 1))) =
        wrap32 (Nat.fib (j + 2)) := by
      rw [wrap32_add_wrap32, Nat.fib_add_two]; push_cast; rfl
    have hi : wrap32 ((j : Int) + 2 + 1) = ((j + 1 : Nat) : Int) + 2 := by
      rw [wrap32_of_inRange (by unfold INT_MIN; omega) (by omega)]
      push_cast; ring
    have hstep := ih (j + 1) f (by omega) (by omega)
    rw [fibonacciLoop_step_wrapping _ _ _ _ _ hle, hsum, hi]
    exact hstep

/-- C19: for `0 <= n < 2147483647`, in wrapping arithmetic `mobileFibonacci(n)` is the
`n`-th Fibonacci number reduced modulo `2^32` into the signed 32-bit range, as soon as
the loop is allowed its `n - 1` iterations. -/
theorem mobileFibonacci_wraps (n : Int) (h0 : 0 ≤ n) (hn : n < 2147483647) (fuel : Nat)
    (hf : n.toNat - 1 ≤ fuel) :
    mobileFibonacci Arith.wrapping fuel n = Except.ok (wrap32 (Nat.fib n.toNat)) := by
  obtain ⟨k, rfl⟩ := Int.eq_ofNat_of_zero_le h0
  simp only [Int.toNat_ofNat] at hf ⊢
  by_cases h1 : k ≤ 1
  · have : k = 0 ∨ k = 1 := by omega
    rcases this with rfl | rfl
    · simp [mobileFibonacci]; decide
    · simp [mobileFibonacci]; decide
  · have hn1 : ¬ ((k : Int) ≤ 1) := by omega
    have h := fibonacciLoop_wrapping k (by unfold INT_MAX; omega) (k - 1) 0 fuel (by omega) hf
    have e0 : wrap32 ((Nat.fib 0 : Nat) : Int) = 0 := by decide
    have e1 : wrap32 ((Nat.fib (0 + 1) : Nat) : Int) = 1 := by decide
    rw [e0, e1] at h
    simpa [mobileFibonacci, hn1] using h

/-- Witness for C19 at `n = 47`: the result is `2971215073 - 2^32 = -1323752223`. -/
theorem mobileFibonacci_wraps_witness :
    (0 : Int) ≤ 47 ∧ (47 : Int) < 2147483647 ∧ (47 : Int).toNat - 1 ≤ 46 ∧
      mobileFibonacci Arith.wrapping 46 47 = Except.ok (wrap32 (Nat.fib (47 : Int).toNat)) ∧
      Nat.fib 47 = 2971215073 ∧ wrap32 2971215073 = -1323752223 :=
  ⟨by decide, by decide, by decide,
    mobileFibonacci_wraps 47 (by decide) (by decide) 46 (by decide), by norm_num, by decide⟩

theorem fibonacciLoop_INT_MAX_diverges :
    ∀ (fuel : Nat) (i a b : Int), i ≤ 2147483647 →
      fibonacciLoop Arith.wrapping 2147483647 fuel i a b = Except.error Fault.outOfFuel := by
  intro fuel
  induction fuel with
  | zero => intro i a b hi; simp [fibonacciLoop, hi]
  | succ f ih =>
    intro i a b hi
    have hnext : wrap32 (i + 1) ≤ 2147483647 := wrap32_le _
    rw [fibonacciLoop_step_wrapping _ _ _ _ _ hi]
    exact ih _ _ _ hnext

theorem fibonacciLoop_step (m : Arith) (n : Int) (fuel : Nat) (i a b t i' : Int) (h : i ≤ n)
    (ht : iadd m a b = Except.ok t) (hi : iadd m i 1 = Except.ok i') :
    fibonacciLoop m n (fuel + 1) i a b = fibonacciLoop m n fuel i' b t := by
  simp only [fibonacciLoop, h, if_true, ht, hi, bind, Except.bind]

theorem fibonacciLoop_INT_MAX_checked :
    ∀ (d j fuel : Nat), j + d = 45 → d + 1 ≤ fuel →
      fibonacciLoop Arith.checked 2147483647 fuel ((j : Int) + 2) (Nat.fib j : Int)
        (Nat.fib (j + 1) : Int) = Except.error Fault.overflow := by
  intro d
  induction d with
  | zero =>
    intro j fuel hj hf
    have hj' : j = 45 := by omega
    obtain ⟨f, rfl⟩ : ∃ f, fuel = f + 1 := ⟨fuel - 1, by omega⟩
    have hle : (j : Int) + 2 ≤ 2147483647 := by omega
    have hfj : (Nat.fib j : Int) = 1134903170 := by rw [hj']; norm_num
    have hfj1 : (Nat.fib (j + 1) : Int) = 1836311903 := by rw [hj']; norm_num
    have hov : iadd Arith.checked 1134903170 1836311903 = Except.error Fault.overflow := by
      decide
    simp only [fibonacciLoop, hle, if_true, hfj, hfj1, hov, bind, Except.bind]
  | succ d ih =>
    intro j fuel hj hf
    obtain ⟨f, rfl⟩ : ∃ f, fuel = f + 1 := ⟨fuel - 1, by omega⟩
    have hle : (j : Int) + 2 ≤ 2147483647 := by omega
    have hsum : (Nat.fib j : Int) + (Nat.fib (j + 1) : Int) = (Nat.fib (j + 2) : Int) := by
      rw [Nat.fib_add_two]; push_cast; ring
    have hr1 : (Nat.fib (j + 2) : Int) ≤ INT_MAX := fib_le_INT_MAX (by omega)
    have hr0 : INT_MIN ≤ (Nat.fib (j + 2) : Int) := by unfold INT_MIN; omega
    have hi1 : INT_MIN ≤ (j : Int) + 2 + 1 := by unfold INT_MIN; omega
    have hi2 : (j : Int) + 2 + 1 ≤ INT_MAX := by unfold INT_MAX; omega
    have ht : iadd Arith.checked (Nat.fib j : Int) (Nat.fib (j + 1) : Int) =
        Except.ok (Nat.fib (j + 2) : Int) := by
      unfold iadd; rw [hsum]; exact int32_of_inRange Arith.checked hr0 hr1
    have hi : iadd Arith.checked ((j : Int) + 2) 1 = Except.ok (((j + 1 : Nat) : Int) + 2) := by
      unfold iadd
      rw [int32_of_inRange Arith.checked hi1 hi2]
      push_cast; ring_nf
    rw [fibonacciLoop_step _ _ _ _ _ _ _ _ hle ht hi]
    exact ih (j + 1) f (by omega) (by omega)

/-- C14 (evaluation at the failing input): in wrapping 32-bit arithmetic the loop of
`mobileFibonacci(2147483647)` never ends, whatever number of iterations it is allowed:
the counter wraps from `INT_MAX` to `INT_MIN` and `i <= n` holds for every `int`. In
checked arithmetic the run stops with an overflow in its 46th iteration (`a + b` at
`i = 47`). -/
theorem mobileFibonacci_INT_MAX_diverges :
    (∀ fuel : Nat,
      mobileFibonacci Arith.wrapping fuel 2147483647 = Except.error Fault.outOfFuel) ∧
    mobileFibonacci Arith.checked 46 2147483647 = Except.error Fault.overflow := by
  constructor
  · intro fuel
    have h := fibonacciLoop_INT_MAX_diverges fuel 2 0 1 (by decide)
    simpa [mobileFibonacci] using h
  · have h := fibonacciLoop_INT_MAX_checked 45 0 46 (by decide) (by decide)
    simpa [mobileFibonacci] using h

/-! ## The JNI boundary: argument resources and initialization -/

theorem erase_acquired_pair (h : Nat) (out : List Nat) :
    (((h + 1) :: h :: out).erase h).erase (h + 1) = out := by
  have h1 : ((h + 1) :: h :: out).erase h = (h + 1) :: out := by
    rw [List.erase_cons_tail (by simp), List.erase_cons_head]
  rw [h1, List.erase_cons_head]

theorem nativeMobileCreateUser_releases (st : BridgeState) (env : JniEnv) (id : Int)
    (name email : List Char) :
    (nativeMobileCreateUser st env id name email).2.1.outstanding = env.outstanding := by
  simp only [nativeMobileCreateUser, GetStringUTFChars, ReleaseStringUTFChars]
  exact erase_acquired_pair env.nextHandle env.outstanding

theorem nativeMobileValidateEmail_outstanding (st : BridgeState) (env : JniEnv)
    (email : List Char) :
    (nativeMobileValidateEmail st env email).2.1.outstanding =
      env.nextHandle :: env.outstanding := rfl

/-- C11 (evaluation at the failing input): with `GetStringUTFChars` as acquire and
`ReleaseStringUTFChars` as release, every call of `nativeMobileValidateEmail` leaves
one more outstanding buffer than before (the one it acquired for `email`), so the set
of outstanding resources is not as it was; `nativeMobileCreateUser`, the sibling
operation, does leave it unchanged. -/
theorem nativeMobileValidateEmail_leaks :
    (∀ (st : BridgeState) (env : JniEnv) (email : List Char),
      (nativeMobileValidateEmail st env email).2.1.outstanding =
        env.nextHandle :: env.outstanding ∧
      (nativeMobileValidateEmail st env email).2.1.outstanding ≠ env.outstanding) ∧
    (nativeMobileValidateEmail initialState ⟨[], 0⟩ "a@b.com".toList).2.1.outstanding = [0] ∧
    (∀ (st : BridgeState) (env : JniEnv) (id : Int) (name email : List Char),
      (nativeMobileCreateUser st env id name email).2.1.outstanding = env.outstanding) := by
  refine ⟨?_, rfl, nativeMobileCreateUser_releases⟩
  intro st env email
  refine ⟨rfl, ?_⟩
  rw [nativeMobileValidateEmail_outstanding]
  intro h
  have := congrArg List.length h
  simp at this

theorem initializeNim_of_initialized {st : BridgeState} (h : st.nimInitialized = true) :
    initializeNim st = st := by
  simp [initializeNim, h]

theorem initializeNim_initialized (st : BridgeState) :
    (initializeNim st).nimInitialized = true := by
  unfold initializeNim
  cases h : st.nimInitialized <;> simp [h]

theorem boundaryStep_bridge (m : Arith) (fuel : Nat) (s : BridgeState × JniEnv)
    (c : BoundaryCall) :
    (boundaryStep m fuel s c).1 = enter c.target (initializeNim s.1) := by
  cases c <;> rfl

theorem boundaryStep_initialized (m : Arith) (fuel : Nat) (s : BridgeState × JniEnv)
    (c : BoundaryCall) : (boundaryStep m fuel s c).1.nimInitialized = true := by
  rw [boundaryStep_bridge]
  exact initializeNim_initialized s.1

theorem runCalls_of_initialized (m : Arith) (fuel : Nat) :
    ∀ (cs : List BoundaryCall) (s : BridgeState × JniEnv), s.1.nimInitialized = true →
      (runCalls m fuel s cs).1.nimInitialized = true ∧
      (runCalls m fuel s cs).1.initCalls = s.1.initCalls ∧
      (runCalls m fuel s cs).1.trace = s.1.trace ++ cs.map BoundaryCall.target := by
  intro cs
  induction cs with
  | nil => intro s h; simp [runCalls, h]
  | cons c cs ih =>
    intro s h
    have hstep : (boundaryStep m fuel s c).1 = enter c.target s.1 := by
      rw [boundaryStep_bridge, initializeNim_of_initialized h]
    have hi : (boundaryStep m fuel s c).1.nimInitialized = true :=
      boundaryStep_initialized m fuel s c
    obtain ⟨h1, h2, h3⟩ := ih (boundaryStep m fuel s c) hi
    have hrun : runCalls m fuel s (c :: cs) = runCalls m fuel (boundaryStep m fuel s c) cs := rfl
    rw [hrun]
    refine ⟨h1, ?_, ?_⟩
    · rw [h2, hstep]; rfl
    · rw [h3, hstep]; simp [enter]

/-- C12: starting from the uninitialized state, after every non-empty sequence of
boundary calls `mobileNimInit` has been called exactly once; the library functions
entered are `mobileNimInit` first and then the target of each call in order, so the
hook runs during the first call and before that call reaches the compute library;
`nimInitialized` is true after the sequence, and after any single call from any
state, so no operation sets it back to false. -/
theorem initializeNim_once (m : Arith) (fuel : Nat) (env : JniEnv) (c : BoundaryCall)
    (cs : List BoundaryCall) :
    (runCalls m fuel (initialState, env) (c :: cs)).1.initCalls = 1 ∧
    (runCalls m fuel (initialState, env) (c :: cs)).1.trace =
      LibFn.mobileNimInit :: (c :: cs).map BoundaryCall.target ∧
    (boundaryStep m fuel (initialState, env) c).1.initCalls = 1 ∧
    (boundaryStep m fuel (initialState, env) c).1.trace = [LibFn.mobileNimInit, c.target] ∧
    (runCalls m fuel (initialState, env) (c :: cs)).1.nimInitialized = true ∧
    (∀ (s : BridgeState × JniEnv) (d : BoundaryCall),
      (boundaryStep m fuel s d).1.nimInitialized = true) := by
  have hfirst : (boundaryStep m fuel (initialState, env) c).1 =
      { nimInitialized := true, initCalls := 1, trace := [LibFn.mobileNimInit, c.target] } := by
    rw [boundaryStep_bridge]; rfl
  have hrun : runCalls m fuel (initialState, env) (c :: cs) =
      runCalls m fuel (boundaryStep m fuel (initialState, env) c) cs := rfl
  obtain ⟨h1, h2, h3⟩ := runCalls_of_initialized m fuel cs
    (boundaryStep m fuel (initialState, env) c) (by rw [hfirst])
  refine ⟨?_, ?_, ?_, ?_, ?_, boundaryStep_initialized m fuel⟩
  · rw [hrun, h2, hfirst]
  · rw [hrun, h3, hfirst]; simp
  · rw [hfirst]
  · rw [hfirst]
  · rw [hrun]; exact h1

/-- C15: `mobileCreateUser` is not injective: with the same `id`, the pair
(`a", email: "b`, `c`) and the different pair (`a`, `b", email: "c`) give the same
record `User{id: 1, name: "a", email: "b", email: "c"}`. -/
theorem mobileCreateUser_not_injective :
    ("a\", email: \"b".toList, "c".toList) ≠ ("a".toList, "b\", email: \"c".toList) ∧
    mobileCreateUser 1 "a\", email: \"b".toList "c".toList =
      mobileCreateUser 1 "a".toList "b\", email: \"c".toList ∧
    mobileCreateUser 1 "a\", email: \"b".toList "c".toList =
      "User\x7bid: 1, name: \"a\", email: \"b\", email: \"c\"\x7d".toList := by
  decide

/-! ## Agreement, termination and safety -/

theorem digitChar_ne_comma : ∀ x : Nat, x < 10 → Nat.digitChar x ≠ ',' := by decide

theorem comma_not_mem_toDigitsCore :
    ∀ (fuel n : Nat) (ds : List Char), ',' ∉ ds → ',' ∉ Nat.toDigitsCore 10 fuel n ds := by
  intro fuel
  induction fuel with
  | zero => intro n ds h; simpa [Nat.toDigitsCore] using h
  | succ f ih =>
    intro n ds h
    have hd : ',' ∉ Nat.digitChar (n % 10) :: ds := by
      intro hm
      rcases List.mem_cons.mp hm with he | hm'
      · exact digitChar_ne_comma (n % 10) (Nat.mod_lt _ (by decide)) he.symm
      · exact h hm'
    simp only [Nat.toDigitsCore]
    split_ifs
    · exact hd
    · exact ih _ _ hd

theorem comma_not_mem_decimal (z : Int) : ',' ∉ decimal z := by
  have h : ',' ∉ Nat.toDigits 10 z.natAbs := comma_not_mem_toDigitsCore _ _ [] (by simp)
  unfold decimal
  split_ifs
  · intro hm
    rcases List.mem_cons.mp hm with he | hm'
    · exact absurd he (by decide)
    · exact h hm'
  · exact h

theorem comma_mem_intercalate (d e : List Char) (ds : List (List Char)) :
    ',' ∈ List.intercalate ", ".toList (d :: e :: ds) := by
  rw [intercalate_cons_cons]
  simp

/-- A list of primes whose product is `n` is the one-element list `[n]` exactly when
`n` is prime. -/
theorem prime_factors_singleton_iff (n : Int) (h2 : 2 ≤ n) (fs : List Int) (hprod : fs.prod = n)
    (hmem : ∀ x ∈ fs, 2 ≤ x ∧ Nat.Prime x.toNat) :
    fs = [n] ↔ Nat.Prime n.toNat := by
  constructor
  · intro h
    exact (hmem n (by rw [h]; simp)).2
  · intro hp
    cases fs with
    | nil => simp at hprod; omega
    | cons x rest =>
      have hx := hmem x (by simp)
      have hxd : x ∣ n := by rw [← hprod]; exact List.dvd_prod (by simp)
      have hxle : x ≤ n := Int.le_of_dvd (by omega) hxd
      have hxn : x = n := by
        by_contra hne
        exact not_prime_of_int_dvd hx.1 (by omega) hxd hp
      subst hxn
      have hrest : rest.prod = 1 := by
        rw [List.prod_cons] at hprod
        have hx0 : x ≠ 0 := by omega
        exact mul_left_cancel₀ hx0 (by rw [hprod, mul_one])
      cases rest with
      | nil => rfl
      | cons y r =>
        have hy := hmem y (by simp)
        have hyd : y ∣ (1 : Int) := by rw [← hrest]; exact List.dvd_prod (by simp)
        have := Int.le_of_dvd (by decide) hyd
        omega

/-- C17: for `2 <= n < 2147483647`, in wrapping 32-bit arithmetic both functions return
(given the iterations they need), and `mobileIsPrime(n)` returns 1 exactly when the
factors that `mobileFactorize(n)` lists are the single factor `n`, that is exactly
when it returns `Factors of <n>: <n>`; both hold exactly when `n` is prime. -/
theorem mobileIsPrime_iff_single_factor (n : Int) (h2 : 2 ≤ n) (hn : n < 2147483647)
    (f1 f2 : Nat) (hf1 : 258919113 ≤ f1) (hf2 : n ≤ f2 + 1) :
    ∃ (r : Int) (fs : List Int),
      mobileIsPrime Arith.wrapping f1 n = Except.ok r ∧
      factorsOf Arith.wrapping f2 n = Except.ok fs ∧
      (r = 1 ↔ fs = [n]) ∧
      (fs = [n] ↔ mobileFactorize Arith.wrapping f2 n =
        Except.ok ("Factors of ".toList ++ decimal n ++ ": ".toList ++ decimal n)) ∧
      (r = 1 ↔ Nat.Prime n.toNat) := by
  obtain ⟨fs, hfs, hprod, hmem, _⟩ :=
    factorsOf_spec Arith.wrapping n (by omega) (by unfold INT_MAX; omega) f2 hf2
  have hr := mobileIsPrime_wrapping_spec n (by unfold INT_MIN; omega) hn f1 hf1
  have hsingle := prime_factors_singleton_iff n h2 fs hprod hmem
  have hrp : ((if Nat.Prime n.toNat then (1 : Int) else 0) = 1 ↔ Nat.Prime n.toNat) := by
    split_ifs with hp <;> simp [hp]
  have hstr : mobileFactorize Arith.wrapping f2 n = Except.ok ("Factors of ".toList ++
      decimal n ++ ": ".toList ++ List.intercalate ", ".toList (fs.map decimal)) := by
    rw [mobileFactorize_eq_render, hfs]; rfl
  refine ⟨_, fs, hr, hfs, hrp.trans hsingle.symm, ?_, hrp⟩
  rw [hstr]
  constructor
  · intro h
    rw [h]
    simp [List.intercalate]
  · intro h
    have heq : List.intercalate ", ".toList (fs.map decimal) = decimal n :=
      List.append_cancel_left (Except.ok.inj h)
    cases fs with
    | nil => simp at hprod; omega
    | cons x rest =>
      cases rest with
      | nil =>
        have hx : x = n := by simpa using hprod
        rw [hx]
      | cons y r =>
        have hc := comma_mem_intercalate (decimal x) (decimal y) (r.map decimal)
        rw [← List.map_cons, ← List.map_cons, heq] at hc
        exact absurd hc (comma_not_mem_decimal n)

/-- Witness for C17 at the prime `n = 13`. -/
theorem mobileIsPrime_iff_single_factor_witness :
    (2 : Int) ≤ 13 ∧ (13 : Int) < 2147483647 ∧ 258919113 ≤ 258919113 ∧ (13 : Int) ≤ 12 + 1 ∧
    ∃ (r : Int) (fs : List Int),
      mobileIsPrime Arith.wrapping 258919113 13 = Except.ok r ∧
      factorsOf Arith.wrapping 12 13 = Except.ok fs ∧
      (r = 1 ↔ fs = [13]) ∧
      (fs = [13] ↔ mobileFactorize Arith.wrapping 12 13 =
        Except.ok ("Factors of ".toList ++ decimal 13 ++ ": ".toList ++ decimal 13)) ∧
      (r = 1 ↔ Nat.Prime (13 : Int).toNat) :=
  ⟨by decide, by decide, Nat.le_refl _, by decide,
    mobileIsPrime_iff_single_factor 13 (by decide) (by decide) 258919113 12 (Nat.le_refl _)
      (by decide)⟩

/-- For every `n` below `INT_MAX` (negative, zero or positive) `mobileFactorize(n)`
returns a string within `n - 1` passes of its outer loop, in either arithmetic mode,
so with no overflow and no division by zero. -/
theorem mobileFactorize_terminates (m : Arith) (n : Int) (hn : n < INT_MAX) (fuel : Nat)
    (hf : n ≤ fuel + 1) : ∃ s : List Char, mobileFactorize m fuel n = Except.ok s := by
  by_cases h1 : 1 ≤ n
  · obtain ⟨fs, h, _⟩ := mobileFactorize_spec m n h1 hn fuel hf
    exact ⟨_, h⟩
  · have h2 : ¬ ((2 : Int) ≤ n) := by omega
    have hfs : factorsOf m fuel n = Except.ok [] := by
      unfold factorsOf
      cases fuel <;> simp [factorizeFor, h2]
    rw [mobileFactorize_eq_render, hfs]
    exact ⟨_, rfl⟩

/-- C13 (evaluation at the failing input): in wrapping 32-bit arithmetic
`mobileFactorize(2147483647)` does not terminate: no number of loop iterations makes it
yield a string. It does not divide by zero either; the run is caught in the inner loop
`while (n % i == 0)` at `i = -1`, which never ends from `n = 1`. -/
theorem mobileFactorize_INT_MAX_never_ends :
    (∀ (fuel : Nat) (s : List Char),
      mobileFactorize Arith.wrapping fuel 2147483647 ≠ Except.ok s) ∧
    (∀ fuel : Nat,
      mobileFactorize Arith.wrapping fuel 2147483647 ≠ Except.error Fault.divByZero) ∧
    (∀ (fuel : Nat) (fs : List Int),
      factorizeWhile Arith.wrapping (-1) fuel 1 fs = Except.error Fault.outOfFuel) := by
  have hd : ∀ fuel : Nat,
      mobileFactorize Arith.wrapping fuel 2147483647 = Except.error Fault.outOfFuel := by
    intro fuel
    have h := factorizeFor_INT_MAX_diverges 2147483645 fuel 2 (by norm_num) (by norm_num)
    simp only [mobileFactorize, factorsOf, h, bind, Except.bind]
  refine ⟨?_, ?_, fun fuel fs => factorizeWhile_neg_one_diverges fuel 1 fs (Or.inl rfl)⟩
  · intro fuel s h
    rw [hd fuel] at h
    exact absurd h (by simp)
  · intro fuel h
    rw [hd fuel] at h
    exact absurd h (by decide)

/-- C18: for every `int` `n <= 2147117568` the evaluation of `mobileIsPrime(n)` in
checked arithmetic ends within 7723 iterations with a result 0 or 1: it meets no
overflow in `i * i`, `i + 2` or `i += 6`, no zero divisor in `%`, and does not run
out of iterations; wrapping arithmetic gives the same result. -/
theorem mobileIsPrime_checked_safe (n : Int) (h0 : INT_MIN ≤ n) (hn : n ≤ 2147117568)
    (fuel : Nat) (hf : 7723 ≤ fuel) :
    ∃ r : Int, mobileIsPrime Arith.checked fuel n = Except.ok r ∧ (r = 0 ∨ r = 1) ∧
      mobileIsPrime Arith.wrapping fuel n = Except.ok r := by
  refine ⟨if Nat.Prime n.toNat then 1 else 0, mobileIsPrime_spec Arith.checked n h0 hn fuel hf,
    ?_, mobileIsPrime_spec Arith.wrapping n h0 hn fuel hf⟩
  split_ifs
  · exact Or.inr rfl
  · exact Or.inl rfl

/-- Witness for C18 at the bound `n = 2147117568`. -/
theorem mobileIsPrime_checked_safe_witness :
    INT_MIN ≤ 2147117568 ∧ (2147117568 : Int) ≤ 2147117568 ∧ 7723 ≤ 7723 ∧
    ∃ r : Int, mobileIsPrime Arith.checked 7723 2147117568 = Except.ok r ∧ (r = 0 ∨ r = 1) ∧
      mobileIsPrime Arith.wrapping 7723 2147117568 = Except.ok r :=
  ⟨by decide, le_refl _, Nat.le_refl _,
    mobileIsPrime_checked_safe 2147117568 (by decide) (le_refl _) 7723 (Nat.le_refl _)⟩

/-- C16: `mobileValidateEmail(s)` returns 1 or 0, and returns 1 exactly when `s`
contains `@`, its first `@` is at an index `p >= 1`, `s` contains a `.` at an index
`>= p`, and the first such `.` is at an index `q` with `p + 1 < q < length(s) - 1`;
every accepted string has length at least 5, and `a@.b.c` is rejected. -/
theorem mobileValidateEmail_exact (s : List Char) (hlen : s.length < npos) :
    (mobileValidateEmail s = 1 ∨ mobileValidateEmail s = 0) ∧
    (mobileValidateEmail s = 1 ↔
      ∃ p : Nat, (s[p]? = some '@' ∧ ∀ j, j < p → s[j]? ≠ some '@') ∧ 1 ≤ p ∧
        ∃ q : Nat, (p ≤ q ∧ s[q]? = some '.' ∧ ∀ j, p ≤ j → j < q → s[j]? ≠ some '.') ∧
          p + 1 < q ∧ q < s.length - 1) ∧
    (mobileValidateEmail s = 1 → 5 ≤ s.length) ∧
    mobileValidateEmail "a@.b.c".toList = 0 := by
  have hiff := mobileValidateEmail_eq_one_iff s hlen
  refine ⟨mobileValidateEmail_one_or_zero s, ?_, ?_, by decide⟩
  · rw [hiff]
    constructor
    · rintro ⟨p, q, ha, hfa, hle, hd, hfd, hp, hpq, hq⟩
      exact ⟨p, ⟨ha, hfa⟩, hp, q, ⟨hle, hd, hfd⟩, hpq, hq⟩
    · rintro ⟨p, ⟨ha, hfa⟩, hp, q, ⟨hle, hd, hfd⟩, hpq, hq⟩
      exact ⟨p, q, ha, hfa, hle, hd, hfd, hp, hpq, hq⟩
  · intro h
    obtain ⟨p, q, _, _, _, _, _, hp, hpq, hq⟩ := hiff.mp h
    omega

/-- Witness for C16: `ab@cd.ef` is accepted, with `p = 2` and `q = 5`. -/
theorem mobileValidateEmail_exact_witness :
    "ab@cd.ef".toList.length < npos ∧ mobileValidateEmail "ab@cd.ef".toList = 1 ∧
      5 ≤ "ab@cd.ef".toList.length :=
  ⟨by decide,
    (mobileValidateEmail_exact "ab@cd.ef".toList (by decide)).2.1.mpr
      ⟨2, ⟨by decide, by decide⟩, by decide, 5, ⟨by decide, by decide, by decide⟩, by decide,
        by decide⟩,
    by decide⟩

end NimBridge
